import Mathlib

/-!
Verification of the DASL library core (canonical CBOR subset "DRISL" plus the
CID content-identifier scheme) against its natural-language specification.

The data model and the operations are shallowly embedded:

* bytes are `Nat` values, with explicit `< 256` bounds where the `u8` type of
  the source matters;
* `Cid` (from `src/cid.rs`) stores its 36-byte backing array as a `List Nat`;
* the dynamic `Value` type (from `src/drisl/value.rs`) is a nested inductive;
  Rust `String` payloads are represented by their UTF-8 byte sequences, the
  order Rust's `String` ordering uses;
* fallible operations return `Except`; the reachable `panic` of
  `Cid::from_bytes_raw` is modelled by a dedicated result constructor;
* the base32 codec (declared as `crate::base32`) and the byte-level
  encoder/decoder (`drisl/ser.rs`, `drisl/de.rs`, `drisl/cbor4ii_nonpub.rs`)
  are not present in the sources; those definitions are modelled from the
  specification, and are marked as such in their doc comments.
-/

/-! ### Lexicographic comparison of byte lists

Models the derived lexicographic ordering on Rust byte slices and arrays
(element-wise, a strict prefix is smaller). -/

def lexLtB : List Nat → List Nat → Bool
  | [], [] => false
  | [], _ :: _ => true
  | _ :: _, [] => false
  | a :: as, b :: bs => a < b || (a = b && lexLtB as bs)

def lexLeB (x y : List Nat) : Bool := lexLtB x y || x = y

theorem lexLtB_irrefl (l : List Nat) : lexLtB l l = false := by
  induction l with
  | nil => rfl
  | cons a as ih => simp [lexLtB, ih]

theorem lexLtB_asymm : ∀ x y : List Nat, lexLtB x y = true → lexLtB y x = true → False
  | [], [], h, _ => by simp [lexLtB] at h
  | [], _ :: _, _, h => by simp [lexLtB] at h
  | _ :: _, [], h, _ => by simp [lexLtB] at h
  | a :: as, b :: bs, h, h2 => by
    simp only [lexLtB, Bool.or_eq_true, Bool.and_eq_true, decide_eq_true_eq] at h h2
    rcases h with h | ⟨rfl, h⟩
    · rcases h2 with h2 | ⟨rfl, h2⟩
      · omega
      · omega
    · rcases h2 with h2 | ⟨-, h2⟩
      · omega
      · exact lexLtB_asymm as bs h h2

theorem lexLtB_trans : ∀ x y z : List Nat,
    lexLtB x y = true → lexLtB y z = true → lexLtB x z = true
  | x, [], _, h, _ => by cases x <;> simp [lexLtB] at h
  | _, _ :: _, [], _, h2 => by simp [lexLtB] at h2
  | [], _ :: _, _ :: _, _, _ => by simp [lexLtB]
  | a :: as, b :: bs, c :: cs, h, h2 => by
    simp only [lexLtB, Bool.or_eq_true, Bool.and_eq_true, decide_eq_true_eq] at h h2 ⊢
    rcases h with h | ⟨rfl, h⟩
    · rcases h2 with h2 | ⟨rfl, h2⟩
      · exact Or.inl (by omega)
      · exact Or.inl h
    · rcases h2 with h2 | ⟨rfl, h2⟩
      · exact Or.inl h2
      · exact Or.inr ⟨rfl, lexLtB_trans as bs cs h h2⟩

theorem lexLtB_total : ∀ x y : List Nat,
    lexLtB x y = true ∨ lexLtB y x = true ∨ x = y
  | [], [] => by simp [lexLtB]
  | [], _ :: _ => by simp [lexLtB]
  | _ :: _, [] => by simp [lexLtB]
  | a :: as, b :: bs => by
    rcases Nat.lt_trichotomy a b with h | h | h
    · exact Or.inl (by simp [lexLtB, h])
    · subst h
      rcases lexLtB_total as bs with h | h | h
      · exact Or.inl (by simp [lexLtB, h])
      · exact Or.inr (Or.inl (by simp [lexLtB, h]))
      · exact Or.inr (Or.inr (by simp [h]))
    · exact Or.inr (Or.inl (by simp [lexLtB, h]))

theorem lexLeB_total (x y : List Nat) : lexLeB x y = true ∨ lexLeB y x = true := by
  rcases lexLtB_total x y with h | h | h
  · exact Or.inl (by simp [lexLeB, h])
  · exact Or.inr (by simp [lexLeB, h])
  · exact Or.inl (by simp [lexLeB, h])

theorem lexLtB_of_le_of_ne {x y : List Nat} (h : lexLeB x y = true) (hne : x ≠ y) :
    lexLtB x y = true := by
  rcases Bool.or_eq_true_iff.mp h with h1 | h1
  · exact h1
  · exact absurd (by simpa using h1) hne

/-! ### Insertion sort by a boolean comparator

Models the "collect entry pairs, sort, flush" step of the encoder's map
handling (spec §4.3 and the design note on map key ordering). -/

def insertBy {α : Type} (le : α → α → Bool) (a : α) : List α → List α
  | [] => [a]
  | b :: bs => if le a b then a :: b :: bs else b :: insertBy le a bs

def insSortBy {α : Type} (le : α → α → Bool) : List α → List α
  | [] => []
  | a :: as => insertBy le a (insSortBy le as)

theorem insertBy_perm {α : Type} (le : α → α → Bool) (a : α) :
    ∀ l : List α, List.Perm (insertBy le a l) (a :: l)
  | [] => List.Perm.refl _
  | b :: bs => by
    simp only [insertBy]
    split
    · exact List.Perm.refl _
    · exact ((insertBy_perm le a bs).cons b).trans (List.Perm.swap a b bs)

theorem insSortBy_perm {α : Type} (le : α → α → Bool) :
    ∀ l : List α, List.Perm (insSortBy le l) l
  | [] => List.Perm.refl _
  | a :: as =>
    (insertBy_perm le a (insSortBy le as)).trans ((insSortBy_perm le as).cons a)

theorem insertBy_pairwise {α : Type} (le : α → α → Bool)
    (htot : ∀ x y : α, le x y = true ∨ le y x = true)
    (htrans : ∀ x y z : α, le x y = true → le y z = true → le x z = true)
    (a : α) : ∀ l : List α, l.Pairwise (fun x y => le x y = true) →
      (insertBy le a l).Pairwise (fun x y => le x y = true)
  | [], _ => by simp [insertBy]
  | b :: bs, hp => by
    simp only [insertBy]
    rcases List.pairwise_cons.mp hp with ⟨hb, hbs⟩
    split
    · rename_i hab
      refine List.pairwise_cons.mpr ⟨?_, hp⟩
      intro x hx
      rcases List.mem_cons.mp hx with rfl | hx
      · exact hab
      · exact htrans a b x hab (hb x hx)
    · rename_i hab
      have hba : le b a = true := by
        rcases htot a b with h | h
        · exact absurd h hab
        · exact h
      refine List.pairwise_cons.mpr ⟨?_, insertBy_pairwise le htot htrans a bs hbs⟩
      intro x hx
      rcases List.mem_cons.mp ((insertBy_perm le a bs).mem_iff.mp hx) with h | h
      · subst h; exact hba
      · exact hb x h

theorem insSortBy_pairwise {α : Type} (le : α → α → Bool)
    (htot : ∀ x y : α, le x y = true ∨ le y x = true)
    (htrans : ∀ x y z : α, le x y = true → le y z = true → le x z = true) :
    ∀ l : List α, (insSortBy le l).Pairwise (fun x y => le x y = true)
  | [] => List.Pairwise.nil
  | a :: as => insertBy_pairwise le htot htrans a _ (insSortBy_pairwise le htot htrans as)

/-! ### Base32 lower codec

Modelled from the spec: `src/base32.rs` (the `BASE32_LOWER` codec used by
`cid.rs`) is not among the sources; §4.1 of the spec describes it as RFC 4648
base32 with the lower-case alphabet `a-z2-7`, no `=` padding, partial groups
permitted (1 byte → 2 symbols, 2 → 4, 3 → 5, 4 → 7, 5 → 8), decoding
accepting the alphabet case-insensitively and failing on any other
character. -/

def b32alphabet : List Char :=
  ['a', 'b', 'c', 'd', 'e', 'f', 'g', 'h', 'i', 'j', 'k', 'l', 'm',
   'n', 'o', 'p', 'q', 'r', 's', 't', 'u', 'v', 'w', 'x', 'y', 'z',
   '2', '3', '4', '5', '6', '7']

def alphaChar (v : Nat) : Char := b32alphabet.getD v 'a'

/-- Lookup table for base32 symbol values, both cases of each letter. -/
def charTable : List (Char × Nat) :=
  [('a', 0), ('A', 0), ('b', 1), ('B', 1), ('c', 2), ('C', 2), ('d', 3), ('D', 3),
   ('e', 4), ('E', 4), ('f', 5), ('F', 5), ('g', 6), ('G', 6), ('h', 7), ('H', 7),
   ('i', 8), ('I', 8), ('j', 9), ('J', 9), ('k', 10), ('K', 10), ('l', 11), ('L', 11),
   ('m', 12), ('M', 12), ('n', 13), ('N', 13), ('o', 14), ('O', 14), ('p', 15), ('P', 15),
   ('q', 16), ('Q', 16), ('r', 17), ('R', 17), ('s', 18), ('S', 18), ('t', 19), ('T', 19),
   ('u', 20), ('U', 20), ('v', 21), ('V', 21), ('w', 22), ('W', 22), ('x', 23), ('X', 23),
   ('y', 24), ('Y', 24), ('z', 25), ('Z', 25),
   ('2', 26), ('3', 27), ('4', 28), ('5', 29), ('6', 30), ('7', 31)]

/-- Value of one base32 symbol, case-insensitive; `none` outside the alphabet. -/
def charVal (c : Char) : Option Nat := charTable.lookup c

/-- Symbol values (each < 32) of the base32 encoding, one 5-byte group at a
time, the final partial group padded with zero bits. -/
def b32enc : List Nat → List Nat
  | a :: b :: c :: d :: e :: rest =>
    (a * 2 ^ 32 + b * 2 ^ 24 + c * 2 ^ 16 + d * 2 ^ 8 + e) / 2 ^ 35 ::
    (a * 2 ^ 32 + b * 2 ^ 24 + c * 2 ^ 16 + d * 2 ^ 8 + e) / 2 ^ 30 % 32 ::
    (a * 2 ^ 32 + b * 2 ^ 24 + c * 2 ^ 16 + d * 2 ^ 8 + e) / 2 ^ 25 % 32 ::
    (a * 2 ^ 32 + b * 2 ^ 24 + c * 2 ^ 16 + d * 2 ^ 8 + e) / 2 ^ 20 % 32 ::
    (a * 2 ^ 32 + b * 2 ^ 24 + c * 2 ^ 16 + d * 2 ^ 8 + e) / 2 ^ 15 % 32 ::
    (a * 2 ^ 32 + b * 2 ^ 24 + c * 2 ^ 16 + d * 2 ^ 8 + e) / 2 ^ 10 % 32 ::
    (a * 2 ^ 32 + b * 2 ^ 24 + c * 2 ^ 16 + d * 2 ^ 8 + e) / 2 ^ 5 % 32 ::
    (a * 2 ^ 32 + b * 2 ^ 24 + c * 2 ^ 16 + d * 2 ^ 8 + e) % 32 :: b32enc rest
  | [a, b, c, d] =>
    [(a * 2 ^ 24 + b * 2 ^ 16 + c * 2 ^ 8 + d) / 2 ^ 27,
     (a * 2 ^ 24 + b * 2 ^ 16 + c * 2 ^ 8 + d) / 2 ^ 22 % 32,
     (a * 2 ^ 24 + b * 2 ^ 16 + c * 2 ^ 8 + d) / 2 ^ 17 % 32,
     (a * 2 ^ 24 + b * 2 ^ 16 + c * 2 ^ 8 + d) / 2 ^ 12 % 32,
     (a * 2 ^ 24 + b * 2 ^ 16 + c * 2 ^ 8 + d) / 2 ^ 7 % 32,
     (a * 2 ^ 24 + b * 2 ^ 16 + c * 2 ^ 8 + d) / 2 ^ 2 % 32,
     (a * 2 ^ 24 + b * 2 ^ 16 + c * 2 ^ 8 + d) % 4 * 8]
  | [a, b, c] =>
    [(a * 2 ^ 16 + b * 2 ^ 8 + c) / 2 ^ 19,
     (a * 2 ^ 16 + b * 2 ^ 8 + c) / 2 ^ 14 % 32,
     (a * 2 ^ 16 + b * 2 ^ 8 + c) / 2 ^ 9 % 32,
     (a * 2 ^ 16 + b * 2 ^ 8 + c) / 2 ^ 4 % 32,
     (a * 2 ^ 16 + b * 2 ^ 8 + c) % 16 * 2]
  | [a, b] =>
    [(a * 2 ^ 8 + b) / 2 ^ 11,
     (a * 2 ^ 8 + b) / 2 ^ 6 % 32,
     (a * 2 ^ 8 + b) / 2 % 32,
     (a * 2 ^ 8 + b) % 2 * 16]
  | [a] => [a / 8, a % 8 * 4]
  | [] => []

/-- Bytes from a list of symbol values: groups of 8 symbols, then a final
partial group of 2, 4, 5 or 7 symbols whose padding bits must be zero. -/
def b32decVals : List Nat → Option (List Nat)
  | s0 :: s1 :: s2 :: s3 :: s4 :: s5 :: s6 :: s7 :: rest =>
    match b32decVals rest with
    | some t => some
        ((s0 * 2 ^ 35 + s1 * 2 ^ 30 + s2 * 2 ^ 25 + s3 * 2 ^ 20 + s4 * 2 ^ 15 +
          s5 * 2 ^ 10 + s6 * 2 ^ 5 + s7) / 2 ^ 32 ::
         (s0 * 2 ^ 35 + s1 * 2 ^ 30 + s2 * 2 ^ 25 + s3 * 2 ^ 20 + s4 * 2 ^ 15 +
          s5 * 2 ^ 10 + s6 * 2 ^ 5 + s7) / 2 ^ 24 % 256 ::
         (s0 * 2 ^ 35 + s1 * 2 ^ 30 + s2 * 2 ^ 25 + s3 * 2 ^ 20 + s4 * 2 ^ 15 +
          s5 * 2 ^ 10 + s6 * 2 ^ 5 + s7) / 2 ^ 16 % 256 ::
         (s0 * 2 ^ 35 + s1 * 2 ^ 30 + s2 * 2 ^ 25 + s3 * 2 ^ 20 + s4 * 2 ^ 15 +
          s5 * 2 ^ 10 + s6 * 2 ^ 5 + s7) / 2 ^ 8 % 256 ::
         (s0 * 2 ^ 35 + s1 * 2 ^ 30 + s2 * 2 ^ 25 + s3 * 2 ^ 20 + s4 * 2 ^ 15 +
          s5 * 2 ^ 10 + s6 * 2 ^ 5 + s7) % 256 :: t)
    | none => none
  | [] => some []
  | [s0, s1] =>
    if s1 % 4 = 0 then some [s0 * 8 + s1 / 4] else none
  | [s0, s1, s2, s3] =>
    if s3 % 16 = 0 then some
      [(s0 * 2 ^ 15 + s1 * 2 ^ 10 + s2 * 2 ^ 5 + s3) / 2 ^ 12,
       (s0 * 2 ^ 15 + s1 * 2 ^ 10 + s2 * 2 ^ 5 + s3) / 2 ^ 4 % 256]
    else none
  | [s0, s1, s2, s3, s4] =>
    if s4 % 2 = 0 then some
      [(s0 * 2 ^ 20 + s1 * 2 ^ 15 + s2 * 2 ^ 10 + s3 * 2 ^ 5 + s4) / 2 ^ 17,
       (s0 * 2 ^ 20 + s1 * 2 ^ 15 + s2 * 2 ^ 10 + s3 * 2 ^ 5 + s4) / 2 ^ 9 % 256,
       (s0 * 2 ^ 20 + s1 * 2 ^ 15 + s2 * 2 ^ 10 + s3 * 2 ^ 5 + s4) / 2 % 256]
    else none
  | [s0, s1, s2, s3, s4, s5, s6] =>
    if s6 % 8 = 0 then some
      [(s0 * 2 ^ 30 + s1 * 2 ^ 25 + s2 * 2 ^ 20 + s3 * 2 ^ 15 + s4 * 2 ^ 10 +
        s5 * 2 ^ 5 + s6) / 2 ^ 27,
       (s0 * 2 ^ 30 + s1 * 2 ^ 25 + s2 * 2 ^ 20 + s3 * 2 ^ 15 + s4 * 2 ^ 10 +
        s5 * 2 ^ 5 + s6) / 2 ^ 19 % 256,
       (s0 * 2 ^ 30 + s1 * 2 ^ 25 + s2 * 2 ^ 20 + s3 * 2 ^ 15 + s4 * 2 ^ 10 +
        s5 * 2 ^ 5 + s6) / 2 ^ 11 % 256,
       (s0 * 2 ^ 30 + s1 * 2 ^ 25 + s2 * 2 ^ 20 + s3 * 2 ^ 15 + s4 * 2 ^ 10 +
        s5 * 2 ^ 5 + s6) / 2 ^ 3 % 256]
    else none
  | _ => none

def b32encode (bs : List Nat) : List Char := (b32enc bs).map alphaChar

/-- Symbol values of a character list; `none` if any character is outside the
(case-insensitive) alphabet. -/
def charVals : List Char → Option (List Nat)
  | [] => some []
  | c :: cs =>
    match charVal c, charVals cs with
    | some v, some vs => some (v :: vs)
    | _, _ => none

def b32decode (cs : List Char) : Option (List Nat) :=
  match charVals cs with
  | some vals => b32decVals vals
  | none => none

set_option maxHeartbeats 1000000 in
theorem b32decVals_b32enc : ∀ bs : List Nat, (∀ x ∈ bs, x < 256) →
    b32decVals (b32enc bs) = some bs
  | a :: b :: c :: d :: e :: rest, h => by
    have ha : a < 256 := h a (by simp)
    have hb : b < 256 := h b (by simp)
    have hc : c < 256 := h c (by simp)
    have hd : d < 256 := h d (by simp)
    have he : e < 256 := h e (by simp)
    have ih := b32decVals_b32enc rest (fun x hx => h x (by simp [hx]))
    rw [b32enc, b32decVals, ih]
    simp only [Option.some.injEq, List.cons.injEq, and_true]
    omega
  | [a, b, c, d], h => by
    have ha : a < 256 := h a (by simp)
    have hb : b < 256 := h b (by simp)
    have hc : c < 256 := h c (by simp)
    have hd : d < 256 := h d (by simp)
    rw [b32enc, b32decVals, if_pos (by omega)]
    simp only [Option.some.injEq, List.cons.injEq, and_true]
    omega
  | [a, b, c], h => by
    have ha : a < 256 := h a (by simp)
    have hb : b < 256 := h b (by simp)
    have hc : c < 256 := h c (by simp)
    rw [b32enc, b32decVals, if_pos (by omega)]
    simp only [Option.some.injEq, List.cons.injEq, and_true]
    omega
  | [a, b], h => by
    have ha : a < 256 := h a (by simp)
    have hb : b < 256 := h b (by simp)
    rw [b32enc, b32decVals, if_pos (by omega)]
    simp only [Option.some.injEq, List.cons.injEq, and_true]
    omega
  | [a], h => by
    have ha : a < 256 := h a (by simp)
    rw [b32enc, b32decVals, if_pos (by omega)]
    simp only [Option.some.injEq, List.cons.injEq, and_true]
    omega
  | [], _ => rfl

theorem b32enc_lt : ∀ bs : List Nat, (∀ x ∈ bs, x < 256) →
    ∀ v ∈ b32enc bs, v < 32
  | a :: b :: c :: d :: e :: rest, h => by
    have ha : a < 256 := h a (by simp)
    have hb : b < 256 := h b (by simp)
    have hc : c < 256 := h c (by simp)
    have hd : d < 256 := h d (by simp)
    have he : e < 256 := h e (by simp)
    have ih := b32enc_lt rest (fun x hx => h x (by simp [hx]))
    rw [b32enc]
    simp only [List.mem_cons]
    rintro v (rfl | rfl | rfl | rfl | rfl | rfl | rfl | rfl | hv)
    · omega
    · omega
    · omega
    · omega
    · omega
    · omega
    · omega
    · omega
    · exact ih v hv
  | [a, b, c, d], h => by
    have ha : a < 256 := h a (by simp)
    have hb : b < 256 := h b (by simp)
    have hc : c < 256 := h c (by simp)
    have hd : d < 256 := h d (by simp)
    rw [b32enc]
    simp only [List.mem_cons]
    rintro v (rfl | rfl | rfl | rfl | rfl | rfl | rfl | hv)
    all_goals first | omega | simp at hv
  | [a, b, c], h => by
    have ha : a < 256 := h a (by simp)
    have hb : b < 256 := h b (by simp)
    have hc : c < 256 := h c (by simp)
    rw [b32enc]
    simp only [List.mem_cons]
    rintro v (rfl | rfl | rfl | rfl | rfl | hv)
    all_goals first | omega | simp at hv
  | [a, b], h => by
    have ha : a < 256 := h a (by simp)
    have hb : b < 256 := h b (by simp)
    rw [b32enc]
    simp only [List.mem_cons]
    rintro v (rfl | rfl | rfl | rfl | hv)
    all_goals first | omega | simp at hv
  | [a], h => by
    have ha : a < 256 := h a (by simp)
    rw [b32enc]
    simp only [List.mem_cons]
    rintro v (rfl | rfl | hv)
    all_goals first | omega | simp at hv
  | [], _ => by rw [b32enc]; simp

theorem charVal_alphaChar : ∀ v : Nat, v < 32 → charVal (alphaChar v) = some v := by
  decide

theorem charVal_upper_alphaChar : ∀ v : Nat, v < 32 →
    charVal (Char.toUpper (alphaChar v)) = some v := by
  decide

theorem charVals_alpha : ∀ vals : List Nat, (∀ v ∈ vals, v < 32) →
    charVals (vals.map alphaChar) = some vals
  | [], _ => rfl
  | v :: vs, h => by
    have hv := charVal_alphaChar v (h v (by simp))
    have ih := charVals_alpha vs (fun x hx => h x (by simp [hx]))
    rw [List.map_cons, charVals, hv, ih]

theorem charVals_alpha_upper : ∀ vals : List Nat, (∀ v ∈ vals, v < 32) →
    charVals ((vals.map alphaChar).map Char.toUpper) = some vals
  | [], _ => rfl
  | v :: vs, h => by
    have hv := charVal_upper_alphaChar v (h v (by simp))
    have ih := charVals_alpha_upper vs (fun x hx => h x (by simp [hx]))
    rw [List.map_cons, List.map_cons, charVals, hv, ih]

theorem b32decode_b32encode (bs : List Nat) (h : ∀ x ∈ bs, x < 256) :
    b32decode (b32encode bs) = some bs := by
  unfold b32decode b32encode
  rw [charVals_alpha (b32enc bs) (b32enc_lt bs h)]
  exact b32decVals_b32enc bs h

theorem b32decode_upper (bs : List Nat) (h : ∀ x ∈ bs, x < 256) :
    b32decode ((b32encode bs).map Char.toUpper) = some bs := by
  unfold b32decode b32encode
  rw [charVals_alpha_upper (b32enc bs) (b32enc_lt bs h)]
  exact b32decVals_b32enc bs h

theorem charVals_none : ∀ cs : List Char, ∀ x ∈ cs, charVal x = none →
    charVals cs = none
  | [], x, hx, _ => absurd hx (by simp)
  | c :: cs, x, hx, hnone => by
    rcases List.mem_cons.mp hx with rfl | hx
    · rw [charVals, hnone]
    · rw [charVals, charVals_none cs x hx hnone]
      cases charVal c <;> rfl

theorem b32decode_none (cs : List Char) (x : Char) (hx : x ∈ cs)
    (hnone : charVal x = none) : b32decode cs = none := by
  unfold b32decode
  rw [charVals_none cs x hx hnone]

/-! ### CID (`src/cid.rs`)

A `Cid` stores a fixed 36-byte backing array (`data: [u8; DATA_LEN]`):
version, codec, hash type, hash length, then 32 hash bytes.  Equality and
the derived ordering act on the whole array.  `Cid::from_bytes_raw` is
translated faithfully, including the reachable `panic`: with `MIN_LEN = 3`
a 3-byte input passes the length check and then reads `bytes[3]`, which is
out of bounds; the `FbrResult.panics` constructor models that. -/

inductive Codec where
  | raw
  | drisl
  deriving DecidableEq, Repr

def Codec.toByte : Codec → Nat
  | .raw => 0x55
  | .drisl => 0x71

inductive Multihash where
  | sha2256
  | blake3
  deriving DecidableEq, Repr

inductive ParseCodecError where
  | unknownCodec (b : Nat)
  deriving DecidableEq, Repr

inductive MultihashParseError where
  | invalidLength (n : Nat)
  | unknownHash (b : Nat)
  | invalidLengthMark
  deriving DecidableEq, Repr

inductive CidParseError where
  | invalidEncoding
  | tooShort
  | invalidCidVersion (b : Nat)
  | invalidCodec (e : ParseCodecError)
  | invalidMultihash (e : MultihashParseError)
  deriving DecidableEq, Repr

structure Cid where
  data : List Nat
  deriving DecidableEq, Repr

/-- Result of `Cid::from_bytes_raw` and of the operations built on it:
either a value, a `CidParseError`, or a crash of the process. -/
inductive FbrResult where
  | panics
  | err (e : CidParseError)
  | ok (c : Cid)
  deriving DecidableEq, Repr

def Cid.fromBytesRaw (bytes : List Nat) : FbrResult :=
  if bytes.length < 3 then .err .tooShort
  else if bytes.length > 36 then .err (.invalidMultihash (.invalidLength bytes.length))
  else if bytes.getD 0 0 ≠ 1 then .err (.invalidCidVersion (bytes.getD 0 0))
  else if bytes.getD 1 0 ≠ 0x55 ∧ bytes.getD 1 0 ≠ 0x71 then
    .err (.invalidCodec (.unknownCodec (bytes.getD 1 0)))
  else if bytes.getD 2 0 ≠ 0x12 ∧ bytes.getD 2 0 ≠ 0x1e then
    .err (.invalidMultihash (.unknownHash (bytes.getD 2 0)))
  else if bytes.length < 4 then .panics
  else if bytes.getD 3 0 = 0 then
    if bytes.length > 4 then .err (.invalidMultihash (.invalidLength bytes.length))
    else .ok ⟨bytes.take 4 ++ List.replicate 32 0⟩
  else if bytes.getD 3 0 = 32 then
    if bytes.length ≠ 36 then .err (.invalidMultihash (.invalidLength bytes.length))
    else .ok ⟨bytes⟩
  else .err (.invalidMultihash .invalidLengthMark)

def Cid.fromBytes (bytes : List Nat) : FbrResult :=
  match bytes with
  | [] => .err .tooShort
  | b :: rest => if b ≠ 0 then .err .invalidEncoding else Cid.fromBytesRaw rest

/-- `Cid::hash`; `none` models the `unreachable!` branch. -/
def Cid.hash? (c : Cid) : Option (List Nat) :=
  if c.data.getD 3 0 = 0 then some []
  else if c.data.getD 3 0 = 32 then some (c.data.drop 4)
  else none

/-- `Cid::multihash_type`; `none` models the `expect` panic. -/
def Cid.multihashType? (c : Cid) : Option Multihash :=
  if c.data.getD 2 0 = 0x12 then some .sha2256
  else if c.data.getD 2 0 = 0x1e then some .blake3
  else none

/-- `Cid::codec`; `none` models the `expect` panic. -/
def Cid.codec? (c : Cid) : Option Codec :=
  if c.data.getD 1 0 = 0x55 then some .raw
  else if c.data.getD 1 0 = 0x71 then some .drisl
  else none

/-- `Cid::as_bytes`; `none` models the `unreachable!` branch. -/
def Cid.asBytes? (c : Cid) : Option (List Nat) :=
  if c.data.getD 3 0 = 0 then some (c.data.take 4)
  else if c.data.getD 3 0 = 32 then some c.data
  else none

/-- Total version of `Cid::as_bytes` (the `unreachable!` branch, never taken
on reachable values, is mapped to the backing array). -/
def Cid.asBytes (c : Cid) : List Nat :=
  if c.data.getD 3 0 = 0 then c.data.take 4 else c.data

/-- `Cid::digest_sha2`, with the 32-byte output of the external SHA-256
implementation passed as `hash`. -/
def Cid.digestSha2 (codec : Codec) (hash : List Nat) : Cid :=
  ⟨1 :: codec.toByte :: 0x12 :: 32 :: hash⟩

/-- `Cid::digest_blake3`, with the 32-byte output of the external BLAKE3
implementation passed as `hash`. -/
def Cid.digestBlake3 (codec : Codec) (hash : List Nat) : Cid :=
  ⟨1 :: codec.toByte :: 0x1e :: 32 :: hash⟩

def Cid.emptySha2256 (codec : Codec) : Cid :=
  ⟨1 :: codec.toByte :: 0x12 :: 0 :: List.replicate 32 0⟩

def Cid.emptyBlake3 (codec : Codec) : Cid :=
  ⟨1 :: codec.toByte :: 0x1e :: 0 :: List.replicate 32 0⟩

/-- `impl Display for Cid`: the letter `b` then base32-lower of the logical
record. -/
def Cid.toText (c : Cid) : List Char := 'b' :: b32encode c.asBytes

/-- `impl FromStr for Cid`: strip the `b` multibase letter, base32-decode,
then `from_bytes_raw`. -/
def Cid.parse (s : List Char) : FbrResult :=
  match s with
  | [] => .err .invalidEncoding
  | c0 :: rest =>
    if c0 = 'b' then
      match b32decode rest with
      | some bytes => Cid.fromBytesRaw bytes
      | none => .err .invalidEncoding
    else .err .invalidEncoding

/-- The structural invariant of every reachable `Cid` value. -/
def cidValid (c : Cid) : Prop :=
  c.data.length = 36 ∧
  c.data.getD 0 0 = 1 ∧
  (c.data.getD 1 0 = 0x55 ∨ c.data.getD 1 0 = 0x71) ∧
  (c.data.getD 2 0 = 0x12 ∨ c.data.getD 2 0 = 0x1e) ∧
  (c.data.getD 3 0 = 0 ∨ c.data.getD 3 0 = 32) ∧
  (c.data.getD 3 0 = 0 → c.data.drop 4 = List.replicate 32 0) ∧
  (∀ x ∈ c.data, x < 256)

instance (c : Cid) : Decidable (cidValid c) := by
  unfold cidValid
  infer_instance

/-- The derived `PartialOrd` of `Cid`: lexicographic on the 36-byte array. -/
def cidLt (c1 c2 : Cid) : Bool := lexLtB c1.data c2.data

theorem four_cons : ∀ l : List Nat, 4 ≤ l.length →
    ∃ a b c d t, l = a :: b :: c :: d :: t
  | a :: b :: c :: d :: t, _ => ⟨a, b, c, d, t, rfl⟩
  | [], h => absurd h (by simp)
  | [_], h => absurd h (by simp)
  | [_, _], h => absurd h (by simp)
  | [_, _, _], h => absurd h (by simp)

theorem lookup_snd_mem {α β : Type} [BEq α] :
    ∀ (l : List (α × β)) (c : α) (v : β), l.lookup c = some v → v ∈ l.map Prod.snd
  | [], _, _, h => by simp [List.lookup] at h
  | (a, b) :: l, c, v, h => by
    rw [List.lookup] at h
    cases hac : c == a
    · rw [hac] at h
      have h2 : List.lookup c l = some v := h
      simpa using Or.inr (lookup_snd_mem l c v h2)
    · rw [hac] at h
      have h2 : some b = some v := h
      cases h2
      simp

theorem charVal_lt (c : Char) (v : Nat) (h : charVal c = some v) : v < 32 := by
  have hm := lookup_snd_mem charTable c v h
  have : ∀ x ∈ charTable.map Prod.snd, x < 32 := by decide
  exact this v hm

theorem charVals_lt : ∀ cs : List Char, ∀ vals : List Nat,
    charVals cs = some vals → ∀ v ∈ vals, v < 32
  | [], vals, h => by
    rw [charVals] at h
    cases h
    simp
  | c :: cs, vals, h => by
    rw [charVals] at h
    cases hc : charVal c with
    | none => rw [hc] at h; cases h
    | some v0 =>
      rw [hc] at h
      cases hcs : charVals cs with
      | none => rw [hcs] at h; cases h
      | some vs0 =>
        rw [hcs] at h
        cases h
        intro v hv
        rcases List.mem_cons.mp hv with rfl | hv
        · exact charVal_lt c v hc
        · exact charVals_lt cs vs0 hcs v hv

theorem b32decVals_lt : ∀ vals : List Nat, ∀ bs : List Nat,
    (∀ v ∈ vals, v < 32) → b32decVals vals = some bs → ∀ x ∈ bs, x < 256
  | s0 :: s1 :: s2 :: s3 :: s4 :: s5 :: s6 :: s7 :: rest, bs, hv, h => by
    have h0 : s0 < 32 := hv s0 (by simp)
    have h1 : s1 < 32 := hv s1 (by simp)
    have h2 : s2 < 32 := hv s2 (by simp)
    have h3 : s3 < 32 := hv s3 (by simp)
    have h4 : s4 < 32 := hv s4 (by simp)
    have h5 : s5 < 32 := hv s5 (by simp)
    have h6 : s6 < 32 := hv s6 (by simp)
    have h7 : s7 < 32 := hv s7 (by simp)
    rw [b32decVals] at h
    cases hrest : b32decVals rest with
    | none => rw [hrest] at h; cases h
    | some t =>
      rw [hrest] at h
      cases h
      have ih := b32decVals_lt rest t (fun v hv2 => hv v (by simp [hv2]))
        hrest
      intro x hx
      rcases List.mem_cons.mp hx with rfl | hx
      · omega
      rcases List.mem_cons.mp hx with rfl | hx
      · omega
      rcases List.mem_cons.mp hx with rfl | hx
      · omega
      rcases List.mem_cons.mp hx with rfl | hx
      · omega
      rcases List.mem_cons.mp hx with rfl | hx
      · omega
      · exact ih x hx
  | [], bs, _, h => by
    rw [b32decVals] at h
    cases h
    simp
  | [s0, s1], bs, hv, h => by
    have h0 : s0 < 32 := hv s0 (by simp)
    have h1 : s1 < 32 := hv s1 (by simp)
    rw [b32decVals] at h
    split_ifs at h
    cases h
    intro x hx
    rcases List.mem_cons.mp hx with rfl | hx
    · omega
    · simp at hx
  | [s0, s1, s2, s3], bs, hv, h => by
    have h0 : s0 < 32 := hv s0 (by simp)
    have h1 : s1 < 32 := hv s1 (by simp)
    have h2 : s2 < 32 := hv s2 (by simp)
    have h3 : s3 < 32 := hv s3 (by simp)
    rw [b32decVals] at h
    split_ifs at h
    cases h
    intro x hx
    rcases List.mem_cons.mp hx with rfl | hx
    · omega
    rcases List.mem_cons.mp hx with rfl | hx
    · omega
    · simp at hx
  | [s0, s1, s2, s3, s4], bs, hv, h => by
    have h0 : s0 < 32 := hv s0 (by simp)
    have h1 : s1 < 32 := hv s1 (by simp)
    have h2 : s2 < 32 := hv s2 (by simp)
    have h3 : s3 < 32 := hv s3 (by simp)
    have h4 : s4 < 32 := hv s4 (by simp)
    rw [b32decVals] at h
    split_ifs at h
    cases h
    intro x hx
    rcases List.mem_cons.mp hx with rfl | hx
    · omega
    rcases List.mem_cons.mp hx with rfl | hx
    · omega
    rcases List.mem_cons.mp hx with rfl | hx
    · omega
    · simp at hx
  | [s0, s1, s2, s3, s4, s5, s6], bs, hv, h => by
    have h0 : s0 < 32 := hv s0 (by simp)
    have h1 : s1 < 32 := hv s1 (by simp)
    have h2 : s2 < 32 := hv s2 (by simp)
    have h3 : s3 < 32 := hv s3 (by simp)
    have h4 : s4 < 32 := hv s4 (by simp)
    have h5 : s5 < 32 := hv s5 (by simp)
    have h6 : s6 < 32 := hv s6 (by simp)
    rw [b32decVals] at h
    split_ifs at h
    cases h
    intro x hx
    rcases List.mem_cons.mp hx with rfl | hx
    · omega
    rcases List.mem_cons.mp hx with rfl | hx
    · omega
    rcases List.mem_cons.mp hx with rfl | hx
    · omega
    rcases List.mem_cons.mp hx with rfl | hx
    · omega
    · simp at hx
  | [a], bs, _, h => by
    rw [show b32decVals [a] = none from rfl] at h
    cases h
  | [a, b, c], bs, _, h => by
    rw [show b32decVals [a, b, c] = none from rfl] at h
    cases h
  | [a, b, c, d, e, f], bs, _, h => by
    rw [show b32decVals [a, b, c, d, e, f] = none from rfl] at h
    cases h

theorem b32decode_lt (cs : List Char) (bs : List Nat) (h : b32decode cs = some bs) :
    ∀ x ∈ bs, x < 256 := by
  unfold b32decode at h
  cases hcv : charVals cs with
  | none => rw [hcv] at h; cases h
  | some vals =>
    rw [hcv] at h
    exact b32decVals_lt vals bs (charVals_lt cs vals hcv) h

theorem cid_decomp (c : Cid) (h : cidValid c) :
    ∃ d1 d2 d3 t, c.data = 1 :: d1 :: d2 :: d3 :: t ∧ t.length = 32 ∧
      (d1 = 0x55 ∨ d1 = 0x71) ∧ (d2 = 0x12 ∨ d2 = 0x1e) ∧
      (d3 = 0 ∨ d3 = 32) ∧ (d3 = 0 → t = List.replicate 32 0) := by
  obtain ⟨hlen, h0, h1, h2, h3, h4, _⟩ := h
  obtain ⟨a, b, c2, d, t, hdata⟩ := four_cons c.data (by omega)
  rw [hdata] at h0 h1 h2 h3 h4 hlen
  simp only [List.getD_cons_zero, List.getD_cons_succ] at h0 h1 h2 h3
  subst h0
  refine ⟨b, c2, d, t, hdata, ?_, h1, h2, h3, ?_⟩
  · simp only [List.length_cons] at hlen
    omega
  · intro hd
    have := h4 hd
    simpa using this

theorem fromBytesRaw_full (d1 d2 : Nat) (t : List Nat)
    (h1 : d1 = 0x55 ∨ d1 = 0x71) (h2 : d2 = 0x12 ∨ d2 = 0x1e)
    (ht : t.length = 32) :
    Cid.fromBytesRaw (1 :: d1 :: d2 :: 32 :: t) = .ok ⟨1 :: d1 :: d2 :: 32 :: t⟩ := by
  unfold Cid.fromBytesRaw
  rcases h1 with rfl | rfl <;> rcases h2 with rfl | rfl <;>
    simp [List.getD_cons_zero, List.getD_cons_succ, ht]

theorem cid_valid_asBytes_lt (c : Cid) (h : cidValid c) :
    ∀ x ∈ c.asBytes, x < 256 := by
  obtain ⟨_, _, _, _, _, _, hlt⟩ := h
  intro x hx
  unfold Cid.asBytes at hx
  split_ifs at hx
  · exact hlt x (List.mem_of_mem_take hx)
  · exact hlt x hx

theorem fromBytesRaw_asBytes (bs : List Nat) (c : Cid)
    (h : Cid.fromBytesRaw bs = .ok c) : c.asBytes = bs := by
  unfold Cid.fromBytesRaw at h
  split_ifs at h with hl3 hl36 hv hcod hmh hl4 hz hgt4 h32 hn36 <;>
    try (exact FbrResult.noConfusion h)
  · -- hash length byte 0, bs has exactly 4 bytes
    obtain ⟨b0, b1, b2, b3, t, rfl⟩ := four_cons bs (by omega)
    have ht : t = [] := by
      simp only [List.length_cons] at hl36 hl4 hgt4
      cases t with
      | nil => rfl
      | cons x xs => simp at hgt4
    subst ht
    simp only [List.getD_cons_zero, List.getD_cons_succ] at hz
    subst hz
    injection h with h
    subst h
    simp [Cid.asBytes, List.getD_cons_succ, List.getD_cons_zero]
  · -- hash length byte 32, bs has exactly 36 bytes
    injection h with h
    subst h
    have h32b : bs[3]?.getD 0 = 32 := by
      simpa [List.getD_eq_getElem?_getD] using h32
    unfold Cid.asBytes
    rw [if_neg (by simp [h32b])]

theorem fromBytesRaw_valid (bs : List Nat) (c : Cid) (hb : ∀ x ∈ bs, x < 256)
    (h : Cid.fromBytesRaw bs = .ok c) : cidValid c := by
  unfold Cid.fromBytesRaw at h
  split_ifs at h with hl3 hl36 hv hcod hmh hl4 hz hgt4 h32 hn36 <;>
    try (exact FbrResult.noConfusion h)
  · obtain ⟨b0, b1, b2, b3, t, rfl⟩ := four_cons bs (by omega)
    have ht : t = [] := by
      cases t with
      | nil => rfl
      | cons x xs => simp at hgt4
    subst ht
    simp only [List.getD_cons_zero, List.getD_cons_succ] at hz hv hcod hmh
    push_neg at hv hcod hmh
    subst hz
    subst hv
    injection h with h
    subst h
    have hb1 : b1 < 256 := hb b1 (by simp)
    have hb2 : b2 < 256 := hb b2 (by simp)
    have ht4 : List.take 4 (1 :: b1 :: b2 :: 0 :: ([] : List Nat)) =
        [1, b1, b2, 0] := rfl
    unfold cidValid
    rw [ht4]
    refine ⟨by simp, by simp, ?_, ?_, by simp, by simp, ?_⟩
    · simp only [List.cons_append, List.getD_cons_zero, List.getD_cons_succ]
      rcases eq_or_ne b1 85 with rfl | hne
      · exact Or.inl rfl
      · exact Or.inr (hcod hne)
    · simp only [List.cons_append, List.getD_cons_zero, List.getD_cons_succ]
      rcases eq_or_ne b2 18 with rfl | hne
      · exact Or.inl rfl
      · exact Or.inr (hmh hne)
    · intro x hx
      simp only [List.cons_append, List.nil_append, List.mem_cons] at hx
      rcases hx with rfl | rfl | rfl | rfl | hx
      · omega
      · omega
      · omega
      · omega
      · have : x = 0 := List.eq_of_mem_replicate hx
        omega
  · push_neg at hv hcod hmh hn36
    injection h with h
    subst h
    refine ⟨hn36, hv, ?_, ?_, Or.inr h32, fun hcontra => absurd hcontra hz, hb⟩
    · rcases eq_or_ne (bs.getD 1 0) 85 with heq | hne
      · exact Or.inl heq
      · exact Or.inr (hcod hne)
    · rcases eq_or_ne (bs.getD 2 0) 18 with heq | hne
      · exact Or.inl heq
      · exact Or.inr (hmh hne)

theorem fromBytesRaw_of_valid (c : Cid) (h : cidValid c) :
    Cid.fromBytesRaw c.asBytes = .ok c := by
  obtain ⟨d⟩ := c
  obtain ⟨d1, d2, d3, t, hdata, hlen, h1, h2, h3, h4⟩ := cid_decomp ⟨d⟩ h
  change d = _ at hdata
  subst hdata
  rcases h3 with rfl | rfl
  · have ht := h4 rfl
    subst ht
    rcases h1 with rfl | rfl <;> rcases h2 with rfl | rfl <;> decide
  · have hab : Cid.asBytes ⟨1 :: d1 :: d2 :: 32 :: t⟩ = 1 :: d1 :: d2 :: 32 :: t := rfl
    rw [hab]
    exact fromBytesRaw_full d1 d2 t h1 h2 hlen

theorem parse_toText_of_valid (c : Cid) (h : cidValid c) :
    Cid.parse c.toText = .ok c := by
  have hlt := cid_valid_asBytes_lt c h
  have hred : Cid.parse c.toText =
      (match b32decode (b32encode c.asBytes) with
        | some bytes => Cid.fromBytesRaw bytes
        | none => .err .invalidEncoding) := rfl
  rw [hred, b32decode_b32encode c.asBytes hlt]
  exact fromBytesRaw_of_valid c h

theorem fromBytes_valid (bs : List Nat) (c : Cid) (hb : ∀ x ∈ bs, x < 256)
    (h : Cid.fromBytes bs = .ok c) : cidValid c := by
  cases bs with
  | nil => exact FbrResult.noConfusion h
  | cons b rest =>
    rw [Cid.fromBytes] at h
    split_ifs at h with hb0
    exact fromBytesRaw_valid rest c (fun x hx => hb x (by simp [hx])) h

theorem parse_valid (s : List Char) (c : Cid) (h : Cid.parse s = .ok c) :
    cidValid c := by
  cases s with
  | nil => exact FbrResult.noConfusion h
  | cons c0 rest =>
    rw [Cid.parse] at h
    split_ifs at h with hc0
    cases hdec : b32decode rest with
    | none => rw [hdec] at h; exact FbrResult.noConfusion h
    | some bytes =>
      rw [hdec] at h
      exact fromBytesRaw_valid bytes c (b32decode_lt rest bytes hdec) h

theorem digest_valid (k : Codec) (hash : List Nat) (hlen : hash.length = 32)
    (hlt : ∀ x ∈ hash, x < 256) :
    cidValid (Cid.digestSha2 k hash) ∧ cidValid (Cid.digestBlake3 k hash) := by
  unfold Cid.digestSha2 Cid.digestBlake3 cidValid
  cases k <;>
    refine ⟨⟨by simp [hlen], by simp, by simp [Codec.toByte], by simp, by simp,
        by simp, ?_⟩,
      ⟨by simp [hlen], by simp, by simp [Codec.toByte], by simp, by simp,
        by simp, ?_⟩⟩ <;>
    · intro x hx
      simp only [List.mem_cons] at hx
      rcases hx with rfl | rfl | rfl | rfl | hx
      · omega
      · simp [Codec.toByte]
      · omega
      · omega
      · exact hlt x hx

theorem empty_valid (k : Codec) :
    cidValid (Cid.emptySha2256 k) ∧ cidValid (Cid.emptyBlake3 k) := by
  cases k <;> exact ⟨by decide, by decide⟩

theorem accessors_total (c : Cid) (h : cidValid c) :
    c.hash?.isSome ∧ c.codec?.isSome ∧ c.multihashType?.isSome ∧
      c.asBytes?.isSome := by
  obtain ⟨_, _, h1, h2, h3, _, _⟩ := h
  rw [List.getD_eq_getElem?_getD] at h1 h2 h3
  refine ⟨?_, ?_, ?_, ?_⟩
  · unfold Cid.hash?
    rcases h3 with heq | heq <;> simp [List.getD_eq_getElem?_getD, heq]
  · unfold Cid.codec?
    rcases h1 with heq | heq <;> simp [List.getD_eq_getElem?_getD, heq]
  · unfold Cid.multihashType?
    rcases h2 with heq | heq <;> simp [List.getD_eq_getElem?_getD, heq]
  · unfold Cid.asBytes?
    rcases h3 with heq | heq <;> simp [List.getD_eq_getElem?_getD, heq]

theorem cid_eq_ord (c1 c2 : Cid) (h1 : cidValid c1) (h2 : cidValid c2) :
    (c1 = c2 ↔ c1.asBytes = c2.asBytes) ∧
    cidLt c1 c2 = lexLtB c1.asBytes c2.asBytes := by
  obtain ⟨d⟩ := c1
  obtain ⟨e⟩ := c2
  obtain ⟨d1, d2, d3, t, hd, hdlen, hd1, hd2, hd3, hdz⟩ := cid_decomp ⟨d⟩ h1
  obtain ⟨e1, e2, e3, s, he, helen, he1, he2, he3, hez⟩ := cid_decomp ⟨e⟩ h2
  change d = _ at hd
  change e = _ at he
  subst hd
  subst he
  rcases hd3 with rfl | rfl <;> rcases he3 with rfl | rfl
  · -- both empty
    have ht := hdz rfl
    have hs := hez rfl
    subst ht
    subst hs
    have ha1 : Cid.asBytes ⟨1 :: d1 :: d2 :: 0 :: List.replicate 32 0⟩ =
        [1, d1, d2, 0] := rfl
    have ha2 : Cid.asBytes ⟨1 :: e1 :: e2 :: 0 :: List.replicate 32 0⟩ =
        [1, e1, e2, 0] := rfl
    rw [ha1, ha2]
    constructor
    · simp [Cid.mk.injEq]
    · simp [cidLt, lexLtB, lexLtB_irrefl]
  · -- first empty, second full
    have ht := hdz rfl
    subst ht
    have ha1 : Cid.asBytes ⟨1 :: d1 :: d2 :: 0 :: List.replicate 32 0⟩ =
        [1, d1, d2, 0] := rfl
    have ha2 : Cid.asBytes ⟨1 :: e1 :: e2 :: 32 :: s⟩ =
        1 :: e1 :: e2 :: 32 :: s := rfl
    rw [ha1, ha2]
    constructor
    · simp [Cid.mk.injEq]
    · simp [cidLt, lexLtB, lexLtB_irrefl]
  · -- first full, second empty
    have hs := hez rfl
    subst hs
    have ha1 : Cid.asBytes ⟨1 :: d1 :: d2 :: 32 :: t⟩ =
        1 :: d1 :: d2 :: 32 :: t := rfl
    have ha2 : Cid.asBytes ⟨1 :: e1 :: e2 :: 0 :: List.replicate 32 0⟩ =
        [1, e1, e2, 0] := rfl
    rw [ha1, ha2]
    constructor
    · simp [Cid.mk.injEq]
    · simp [cidLt, lexLtB, lexLtB_irrefl]
  · -- both full
    have ha1 : Cid.asBytes ⟨1 :: d1 :: d2 :: 32 :: t⟩ =
        1 :: d1 :: d2 :: 32 :: t := rfl
    have ha2 : Cid.asBytes ⟨1 :: e1 :: e2 :: 32 :: s⟩ =
        1 :: e1 :: e2 :: 32 :: s := rfl
    rw [ha1, ha2]
    exact ⟨by simp [Cid.mk.injEq], rfl⟩

/-- Claim C3 (code bug in `Cid::from_bytes_raw`): the claim says the function
returns a result without panicking for every input, but with `MIN_LEN = 3`
the three-byte input `[0x01, 0x55, 0x12]` passes every validation up to the
unguarded read of `bytes[3]`, which is out of bounds: the function panics
instead of returning an error or a value. -/
theorem fromBytesRaw_panics_on_three_bytes :
    Cid.fromBytesRaw [1, 0x55, 0x12] = FbrResult.panics := by decide

/-- Claim C4: for every valid `Cid` (the empty four-byte records included),
parsing its textual form returns it and re-decoding its binary form returns
it: `parse(to_string(c)) = c` and `from_bytes_raw(as_bytes(c)) = c`. -/
theorem cid_roundtrip (c : Cid) (h : cidValid c) :
    Cid.parse c.toText = .ok c ∧ Cid.fromBytesRaw c.asBytes = .ok c :=
  ⟨parse_toText_of_valid c h, fromBytesRaw_of_valid c h⟩

/-- Witness for C4 at a concrete empty CID. -/
theorem cid_roundtrip_witness :
    cidValid (Cid.emptySha2256 Codec.raw) ∧
    Cid.parse (Cid.emptySha2256 Codec.raw).toText = .ok (Cid.emptySha2256 Codec.raw) ∧
    Cid.fromBytesRaw (Cid.emptySha2256 Codec.raw).asBytes = .ok (Cid.emptySha2256 Codec.raw) :=
  ⟨by decide, (cid_roundtrip (Cid.emptySha2256 Codec.raw) (by decide)).1,
    (cid_roundtrip (Cid.emptySha2256 Codec.raw) (by decide)).2⟩

/-- Claim C8: CID equality and ordering are structural and lexicographic on
the 4- or 36-byte logical record: equality of CIDs is equivalent to equality
of `as_bytes`, and the derived ordering on the backing arrays agrees with
the lexicographic comparison of `as_bytes`, also between an empty and a
non-empty CID. -/
theorem cid_eq_ord_structural (c1 c2 : Cid) (h1 : cidValid c1) (h2 : cidValid c2) :
    (c1 = c2 ↔ c1.asBytes = c2.asBytes) ∧
    cidLt c1 c2 = lexLtB c1.asBytes c2.asBytes :=
  cid_eq_ord c1 c2 h1 h2

/-- Witness for C8 at a concrete pair: an empty CID and a digest CID. -/
theorem cid_eq_ord_structural_witness :
    ((Cid.emptySha2256 Codec.raw = Cid.digestSha2 Codec.raw (List.replicate 32 7)) ↔
      (Cid.emptySha2256 Codec.raw).asBytes =
        (Cid.digestSha2 Codec.raw (List.replicate 32 7)).asBytes) ∧
    cidLt (Cid.emptySha2256 Codec.raw) (Cid.digestSha2 Codec.raw (List.replicate 32 7)) =
      lexLtB (Cid.emptySha2256 Codec.raw).asBytes
        (Cid.digestSha2 Codec.raw (List.replicate 32 7)).asBytes :=
  cid_eq_ord_structural (Cid.emptySha2256 Codec.raw)
    (Cid.digestSha2 Codec.raw (List.replicate 32 7)) (by decide) (by decide)

/-- Claim C10: every `Cid` produced by the public constructors satisfies the
structural invariant (version 1, known codec byte, known hash-code byte,
hash length 0 or 32, zeroed tail when empty), and on invariant-satisfying
values the accessors `hash`, `codec`, `multihash_type` and `as_bytes` never
reach their `unreachable!`/`expect` branches.  The digest constructors take
the 32-byte output of the external hash implementations as an argument. -/
theorem cid_constructors_invariant :
    (∀ bs c, (∀ x ∈ bs, x < 256) → Cid.fromBytesRaw bs = .ok c → cidValid c) ∧
    (∀ bs c, (∀ x ∈ bs, x < 256) → Cid.fromBytes bs = .ok c → cidValid c) ∧
    (∀ s c, Cid.parse s = .ok c → cidValid c) ∧
    (∀ k hash, hash.length = 32 → (∀ x ∈ hash, x < 256) →
      cidValid (Cid.digestSha2 k hash) ∧ cidValid (Cid.digestBlake3 k hash)) ∧
    (∀ k, cidValid (Cid.emptySha2256 k) ∧ cidValid (Cid.emptyBlake3 k)) ∧
    (∀ c, cidValid c → c.hash?.isSome ∧ c.codec?.isSome ∧
      c.multihashType?.isSome ∧ c.asBytes?.isSome) :=
  ⟨fromBytesRaw_valid, fromBytes_valid, parse_valid,
    fun k hash hlen hlt => digest_valid k hash hlen hlt,
    empty_valid, accessors_total⟩

/-- Witness for C10 at concrete constructor calls. -/
theorem cid_constructors_invariant_witness :
    cidValid (Cid.digestSha2 Codec.raw (List.replicate 32 7)) ∧
    cidValid (Cid.emptyBlake3 Codec.drisl) ∧
    (Cid.emptySha2256 Codec.raw).asBytes?.isSome :=
  ⟨(cid_constructors_invariant.2.2.2.1 Codec.raw (List.replicate 32 7)
      (by decide) (by decide)).1,
    (cid_constructors_invariant.2.2.2.2.1 Codec.drisl).2,
    (cid_constructors_invariant.2.2.2.2.2 (Cid.emptySha2256 Codec.raw)
      (by decide)).2.2.2⟩

/-- Claim C9: base32 decode accepts input case-insensitively — decoding the
upper-cased encoding of any byte sequence returns that sequence — and fails
whenever the input contains a character outside the base32 alphabet. -/
theorem base32_decode_case_insensitive :
    (∀ bs : List Nat, (∀ x ∈ bs, x < 256) →
      b32decode ((b32encode bs).map Char.toUpper) = some bs) ∧
    (∀ cs : List Char, ∀ x ∈ cs, charVal x = none → b32decode cs = none) :=
  ⟨b32decode_upper, b32decode_none⟩

/-- Witness for C9 on the bytes of `"foo"` and on an input with `!`. -/
theorem base32_decode_case_insensitive_witness :
    b32decode ((b32encode [102, 111, 111]).map Char.toUpper) = some [102, 111, 111] ∧
    b32decode ['n', '!'] = none :=
  ⟨base32_decode_case_insensitive.1 [102, 111, 111] (by decide),
    base32_decode_case_insensitive.2 ['n', '!'] '!' (by decide) (by decide)⟩

/-! ### DRISL data model and errors

`Value` follows `src/drisl/value.rs`: Rust's `String` payloads (text and map
keys) are represented by their UTF-8 byte sequences — the order `BTreeMap`
iterates keys in is exactly the lexicographic order of those byte
sequences — and `f64` payloads by their 64-bit patterns.  The `Map` variant
holds the `BTreeMap` entries in their iteration order (keys strictly
ascending in byte-lexicographic order for reachable values).  The error
types follow `src/drisl/error.rs`; the `E` type parameters (IO errors) are
collapsed into payload-free constructors.  The claims quote error kinds by
the names the spec uses, so each constructor also reports the name it has
in the source. -/

inductive Value where
  | integer (i : Int)
  | bytes (bs : List Nat)
  | float (bits : Nat)
  | text (t : List Nat)
  | bool (b : Bool)
  | null
  | cid (c : Cid)
  | array (xs : List Value)
  | map (es : List (List Nat × Value))

inductive EncodeError where
  | msg (s : String)
  | write
  deriving DecidableEq, Repr

/-- The Rust constructor name of an `EncodeError` kind. -/
def EncodeError.kindName : EncodeError → String
  | .msg _ => "Msg"
  | .write => "Write"

inductive DecodeError where
  | msg (s : String)
  | read
  | eof (name : String)
  | mismatch (name : String) (found : Nat)
  | castOverflow (name : String)
  | overflow (name : String)
  | requireBorrowed (name : String)
  | requireLength (name : String)
  | invalidUtf8
  | unsupported (name : String) (found : Nat)
  | depthOverflow (name : String)
  | trailingData
  | indefiniteSize
  deriving DecidableEq, Repr

/-- The Rust constructor name of a `DecodeError` kind. -/
def DecodeError.kindName : DecodeError → String
  | .msg _ => "Msg"
  | .read => "Read"
  | .eof _ => "Eof"
  | .mismatch _ _ => "Mismatch"
  | .castOverflow _ => "CastOverflow"
  | .overflow _ => "Overflow"
  | .requireBorrowed _ => "RequireBorrowed"
  | .requireLength _ => "RequireLength"
  | .invalidUtf8 => "InvalidUtf8"
  | .unsupported _ _ => "Unsupported"
  | .depthOverflow _ => "DepthOverflow"
  | .trailingData => "TrailingData"
  | .indefiniteSize => "IndefiniteSize"

/-- Every kind name the `DecodeError` enum of `src/drisl/error.rs` has. -/
def decodeErrorKindNames : List String :=
  ["Msg", "Read", "Eof", "Mismatch", "CastOverflow", "Overflow",
   "RequireBorrowed", "RequireLength", "InvalidUtf8", "Unsupported",
   "DepthOverflow", "TrailingData", "IndefiniteSize"]

theorem kindName_mem : ∀ e : DecodeError, e.kindName ∈ decodeErrorKindNames := by
  intro e
  cases e <;> simp [DecodeError.kindName, decodeErrorKindNames]

/-- UTF-8 validity of a byte sequence, per RFC 3629 (the table Rust's
`str::from_utf8` checks). -/
def utf8Valid : List Nat → Bool
  | [] => true
  | b :: rest =>
    if b < 0x80 then utf8Valid rest
    else if 0xC2 ≤ b ∧ b ≤ 0xDF then
      match rest with
      | c1 :: r => if 0x80 ≤ c1 ∧ c1 ≤ 0xBF then utf8Valid r else false
      | [] => false
    else if b = 0xE0 then
      match rest with
      | c1 :: c2 :: r =>
        if (0xA0 ≤ c1 ∧ c1 ≤ 0xBF) ∧ (0x80 ≤ c2 ∧ c2 ≤ 0xBF) then utf8Valid r
        else false
      | _ => false
    else if (0xE1 ≤ b ∧ b ≤ 0xEC) ∨ b = 0xEE ∨ b = 0xEF then
      match rest with
      | c1 :: c2 :: r =>
        if (0x80 ≤ c1 ∧ c1 ≤ 0xBF) ∧ (0x80 ≤ c2 ∧ c2 ≤ 0xBF) then utf8Valid r
        else false
      | _ => false
    else if b = 0xED then
      match rest with
      | c1 :: c2 :: r =>
        if (0x80 ≤ c1 ∧ c1 ≤ 0x9F) ∧ (0x80 ≤ c2 ∧ c2 ≤ 0xBF) then utf8Valid r
        else false
      | _ => false
    else if b = 0xF0 then
      match rest with
      | c1 :: c2 :: c3 :: r =>
        if (0x90 ≤ c1 ∧ c1 ≤ 0xBF) ∧ (0x80 ≤ c2 ∧ c2 ≤ 0xBF) ∧
            (0x80 ≤ c3 ∧ c3 ≤ 0xBF) then utf8Valid r
        else false
      | _ => false
    else if 0xF1 ≤ b ∧ b ≤ 0xF3 then
      match rest with
      | c1 :: c2 :: c3 :: r =>
        if (0x80 ≤ c1 ∧ c1 ≤ 0xBF) ∧ (0x80 ≤ c2 ∧ c2 ≤ 0xBF) ∧
            (0x80 ≤ c3 ∧ c3 ≤ 0xBF) then utf8Valid r
        else false
      | _ => false
    else if b = 0xF4 then
      match rest with
      | c1 :: c2 :: c3 :: r =>
        if (0x80 ≤ c1 ∧ c1 ≤ 0x8F) ∧ (0x80 ≤ c2 ∧ c2 ≤ 0xBF) ∧
            (0x80 ≤ c3 ∧ c3 ≤ 0xBF) then utf8Valid r
        else false
      | _ => false
    else false

/-! ### DRISL encoder

Modelled from the spec: `src/drisl/ser.rs` (with the vendored
`cbor4ii_nonpub.rs`) is not among the sources.  §4.3 of the spec fixes the
emission rules: shortest-form headers, binary64-only floats with one
canonical NaN and failure on signalling NaNs, definite lengths only,
map entries sorted by the byte representation of their encoded key string,
CIDs as tag 42 over `0x00 ++ record`, and failure for integers outside
`[-2^64, 2^64-1]`. -/

/-- Shortest-form CBOR header for major type `m` and argument `n < 2^64`. -/
def encHead (m n : Nat) : List Nat :=
  if n < 24 then [m * 32 + n]
  else if n < 2 ^ 8 then [m * 32 + 24, n]
  else if n < 2 ^ 16 then [m * 32 + 25, n / 2 ^ 8, n % 2 ^ 8]
  else if n < 2 ^ 32 then
    [m * 32 + 26, n / 2 ^ 24, n / 2 ^ 16 % 2 ^ 8, n / 2 ^ 8 % 2 ^ 8, n % 2 ^ 8]
  else
    [m * 32 + 27, n / 2 ^ 56 % 2 ^ 8, n / 2 ^ 48 % 2 ^ 8, n / 2 ^ 40 % 2 ^ 8,
     n / 2 ^ 32 % 2 ^ 8, n / 2 ^ 24 % 2 ^ 8, n / 2 ^ 16 % 2 ^ 8,
     n / 2 ^ 8 % 2 ^ 8, n % 2 ^ 8]

/-- Big-endian bytes of a 64-bit pattern. -/
def be8 (n : Nat) : List Nat :=
  [n / 2 ^ 56 % 2 ^ 8, n / 2 ^ 48 % 2 ^ 8, n / 2 ^ 40 % 2 ^ 8,
   n / 2 ^ 32 % 2 ^ 8, n / 2 ^ 24 % 2 ^ 8, n / 2 ^ 16 % 2 ^ 8,
   n / 2 ^ 8 % 2 ^ 8, n % 2 ^ 8]

def canonicalNan : Nat := 0x7ff8000000000000

/-- A 64-bit pattern is a NaN: exponent all ones, mantissa non-zero. -/
def floatIsNan (bits : Nat) : Bool :=
  bits / 2 ^ 52 % 2 ^ 11 = 0x7ff ∧ bits % 2 ^ 52 ≠ 0

/-- A signalling NaN: a NaN whose quiet bit (bit 51) is clear. -/
def floatIsSigNan (bits : Nat) : Bool :=
  floatIsNan bits ∧ bits / 2 ^ 51 % 2 = 0

/-- The encoded form of a map key string (header plus content), the byte
sequence the map ordering compares. -/
def textKeyEnc (k : List Nat) : List Nat := encHead 3 k.length ++ k

abbrev ERes (α : Type) := Except EncodeError α

mutual

def encodeValue : Value → ERes (List Nat)
  | .null => .ok [0xf6]
  | .bool false => .ok [0xf4]
  | .bool true => .ok [0xf5]
  | .integer i =>
    if 0 ≤ i ∧ i < 2 ^ 64 then .ok (encHead 0 i.toNat)
    else if -(2 ^ 64) ≤ i ∧ i < 0 then .ok (encHead 1 (-1 - i).toNat)
    else .error (.msg "integer out of range")
  | .float bits =>
    if floatIsSigNan bits then .error (.msg "signalling NaN")
    else if floatIsNan bits then .ok (0xfb :: be8 canonicalNan)
    else .ok (0xfb :: be8 bits)
  | .text t => .ok (encHead 3 t.length ++ t)
  | .bytes bs => .ok (encHead 2 bs.length ++ bs)
  | .cid c => .ok (0xd8 :: 42 :: encHead 2 (c.asBytes.length + 1) ++ 0 :: c.asBytes)
  | .array xs =>
    match encodeList xs with
    | .ok parts => .ok (encHead 4 xs.length ++ parts.flatten)
    | .error e => .error e
  | .map es =>
    match encodeEntries es with
    | .ok pairs =>
      .ok (encHead 5 es.length ++
        ((insSortBy (fun p q => lexLeB p.1 q.1) pairs).map
          (fun p => p.1 ++ p.2)).flatten)
    | .error e => .error e

def encodeList : List Value → ERes (List (List Nat))
  | [] => .ok []
  | x :: xs =>
    match encodeValue x, encodeList xs with
    | .ok a, .ok b => .ok (a :: b)
    | .error e, _ => .error e
    | .ok _, .error e => .error e

def encodeEntries : List (List Nat × Value) → ERes (List (List Nat × List Nat))
  | [] => .ok []
  | (k, v) :: es =>
    match encodeValue v, encodeEntries es with
    | .ok a, .ok b => .ok ((textKeyEnc k, a) :: b)
    | .error e, _ => .error e
    | .ok _, .error e => .error e

end

/-! ### DRISL decoder

Modelled from the spec: `src/drisl/de.rs` (with the vendored
`cbor4ii_nonpub.rs`) is not among the sources.  §4.4 of the spec fixes the
strictness rules: shortest-form integers and lengths, no indefinite sizes,
binary64 floats only with the canonical NaN pattern, tag 42 only and only
over a byte string starting `0x00`, text map keys strictly ascending by
encoded-key bytes, UTF-8 validation, only the three listed simple values,
and a recursion depth limit (default 128).  Spec error kinds that have no
constructor in the `DecodeError` of `src/drisl/error.rs` are reported
through its catch-all `Msg` kind.  The `u8` type of the wire is modelled by
a guard in `readByte`; `Cid::from_bytes_raw`'s panic is surfaced as a `Msg`
marker (the decoded-value claims never reach it). -/

abbrev DRes (α : Type) := Except DecodeError α

def readByte (bs : List Nat) (name : String) : DRes (Nat × List Nat) :=
  match bs with
  | [] => .error (.eof name)
  | b :: rest => if b < 256 then .ok (b, rest) else .error (.msg "not a byte")

def readByte2 (bs : List Nat) (name : String) : DRes (Nat × Nat × List Nat) :=
  match readByte bs name with
  | .ok (a, r) =>
    match readByte r name with
    | .ok (b, r2) => .ok (a, b, r2)
    | .error e => .error e
  | .error e => .error e

def readByte4 (bs : List Nat) (name : String) :
    DRes (Nat × Nat × Nat × Nat × List Nat) :=
  match readByte2 bs name with
  | .ok (a, b, r) =>
    match readByte2 r name with
    | .ok (c, d, r2) => .ok (a, b, c, d, r2)
    | .error e => .error e
  | .error e => .error e

def readByte8 (bs : List Nat) (name : String) :
    DRes (Nat × Nat × Nat × Nat × Nat × Nat × Nat × Nat × List Nat) :=
  match readByte4 bs name with
  | .ok (a, b, c, d, r) =>
    match readByte4 r name with
    | .ok (e, f, g, h, r2) => .ok (a, b, c, d, e, f, g, h, r2)
    | .error e => .error e
  | .error e => .error e

def takeN : Nat → List Nat → String → DRes (List Nat × List Nat)
  | 0, bs, _ => .ok ([], bs)
  | _ + 1, [], name => .error (.eof name)
  | n + 1, b :: bs, name =>
    match takeN n bs name with
    | .ok (l, r) => .ok (b :: l, r)
    | .error e => .error e

/-- Read the argument of a header whose additional-info bits are `info`,
enforcing the shortest form. -/
def readUintArg (info : Nat) (rest : List Nat) (name : String) :
    DRes (Nat × List Nat) :=
  if info < 24 then .ok (info, rest)
  else if info = 24 then
    match readByte rest name with
    | .ok (b1, r) =>
      if b1 < 24 then .error (.msg "non-minimal") else .ok (b1, r)
    | .error e => .error e
  else if info = 25 then
    match readByte2 rest name with
    | .ok (b1, b2, r) =>
      if b1 * 2 ^ 8 + b2 < 2 ^ 8 then .error (.msg "non-minimal")
      else .ok (b1 * 2 ^ 8 + b2, r)
    | .error e => .error e
  else if info = 26 then
    match readByte4 rest name with
    | .ok (b1, b2, b3, b4, r) =>
      if b1 * 2 ^ 24 + b2 * 2 ^ 16 + b3 * 2 ^ 8 + b4 < 2 ^ 16 then
        .error (.msg "non-minimal")
      else .ok (b1 * 2 ^ 24 + b2 * 2 ^ 16 + b3 * 2 ^ 8 + b4, r)
    | .error e => .error e
  else if info = 27 then
    match readByte8 rest name with
    | .ok (b1, b2, b3, b4, b5, b6, b7, b8, r) =>
      if b1 * 2 ^ 56 + b2 * 2 ^ 48 + b3 * 2 ^ 40 + b4 * 2 ^ 32 + b5 * 2 ^ 24 +
          b6 * 2 ^ 16 + b7 * 2 ^ 8 + b8 < 2 ^ 32 then
        .error (.msg "non-minimal")
      else .ok (b1 * 2 ^ 56 + b2 * 2 ^ 48 + b3 * 2 ^ 40 + b4 * 2 ^ 32 +
          b5 * 2 ^ 24 + b6 * 2 ^ 16 + b7 * 2 ^ 8 + b8, r)
    | .error e => .error e
  else if info = 31 then .error .indefiniteSize
  else .error (.mismatch name info)

/-- Big-endian 64-bit value from eight bytes. -/
def beVal8 (a b c d e f g h : Nat) : Nat :=
  a * 2 ^ 56 + b * 2 ^ 48 + c * 2 ^ 40 + d * 2 ^ 32 +
    e * 2 ^ 24 + f * 2 ^ 16 + g * 2 ^ 8 + h

/-- Ordering precondition for the next map key against the previous encoded
key (rule 7: strictly ascending by encoded-key bytes). -/
def prevOk (prev : Option (List Nat)) (ek : List Nat) : Bool :=
  match prev with
  | none => true
  | some pk => lexLtB pk ek

abbrev DItem := DRes (Value × List Nat)

def decodeItemsAux (dec : List Nat → DItem) :
    Nat → List Nat → DRes (List Value × List Nat)
  | 0, bs => .ok ([], bs)
  | n + 1, bs =>
    match dec bs with
    | .ok (v, r) =>
      match decodeItemsAux dec n r with
      | .ok (vs, r2) => .ok (v :: vs, r2)
      | .error e => .error e
    | .error e => .error e

def decodeEntriesAux (dec : List Nat → DItem) :
    Option (List Nat) → Nat → List Nat → DRes (List (List Nat × Value) × List Nat)
  | _, 0, bs => .ok ([], bs)
  | prev, n + 1, bs =>
    match readByte bs "map key" with
    | .ok (b0, r0) =>
      if b0 / 32 = 3 then
        match readUintArg (b0 % 32) r0 "map key" with
        | .ok (klen, r1) =>
          match takeN klen r1 "map key" with
          | .ok (k, r2) =>
            if utf8Valid k then
              if prevOk prev (textKeyEnc k) then
                match dec r2 with
                | .ok (v, r3) =>
                  match decodeEntriesAux dec (some (textKeyEnc k)) n r3 with
                  | .ok (es, r4) => .ok ((k, v) :: es, r4)
                  | .error e => .error e
                | .error e => .error e
              else .error (.msg "unsorted or duplicate map key")
            else .error .invalidUtf8
          | .error e => .error e
        | .error e => .error e
      else .error (.msg "non-text map key")
    | .error e => .error e

/-- One decoding step for the item whose initial byte `b0` has been read,
with `decSub` decoding nested items at the reduced depth budget. -/
def decodeItemBody (decSub : List Nat → DItem) (budget : Nat) (b0 : Nat)
    (rest0 : List Nat) : DItem :=
  if b0 / 32 = 0 then
    match readUintArg (b0 % 32) rest0 "unsigned" with
    | .ok (n, r) => .ok (.integer (Int.ofNat n), r)
    | .error e => .error e
  else if b0 / 32 = 1 then
    match readUintArg (b0 % 32) rest0 "negative" with
    | .ok (n, r) => .ok (.integer (-1 - Int.ofNat n), r)
    | .error e => .error e
  else if b0 / 32 = 2 then
    match readUintArg (b0 % 32) rest0 "bytes" with
    | .ok (n, r) =>
      match takeN n r "bytes" with
      | .ok (content, r2) => .ok (.bytes content, r2)
      | .error e => .error e
    | .error e => .error e
  else if b0 / 32 = 3 then
    match readUintArg (b0 % 32) rest0 "text" with
    | .ok (n, r) =>
      match takeN n r "text" with
      | .ok (content, r2) =>
        if utf8Valid content then .ok (.text content, r2)
        else .error .invalidUtf8
      | .error e => .error e
    | .error e => .error e
  else if b0 / 32 = 4 then
    match readUintArg (b0 % 32) rest0 "array" with
    | .ok (n, r) =>
      match budget with
      | 0 => .error (.depthOverflow "array")
      | _ + 1 =>
        match decodeItemsAux decSub n r with
        | .ok (vs, r2) => .ok (.array vs, r2)
        | .error e => .error e
    | .error e => .error e
  else if b0 / 32 = 5 then
    match readUintArg (b0 % 32) rest0 "map" with
    | .ok (n, r) =>
      match budget with
      | 0 => .error (.depthOverflow "map")
      | _ + 1 =>
        match decodeEntriesAux decSub none n r with
        | .ok (es, r2) =>
          .ok (.map (insSortBy (fun p q => lexLeB p.1 q.1) es), r2)
        | .error e => .error e
    | .error e => .error e
  else if b0 / 32 = 6 then
    match readUintArg (b0 % 32) rest0 "tag" with
    | .ok (n, r) =>
      if n = 42 then
        match budget with
        | 0 => .error (.depthOverflow "tag")
        | _ + 1 =>
          match readByte r "tag content" with
          | .ok (b1, r1) =>
            if b1 / 32 = 2 then
              match readUintArg (b1 % 32) r1 "tag content" with
              | .ok (len, r2) =>
                match takeN len r2 "tag content" with
                | .ok (content, r3) =>
                  match content with
                  | 0 :: cidBytes =>
                    match Cid.fromBytesRaw cidBytes with
                    | .ok c => .ok (.cid c, r3)
                    | .err _ => .error (.msg "invalid CID")
                    | .panics => .error (.msg "crash: CID index out of bounds")
                  | _ => .error (.msg "CID multibase marker missing")
                | .error e => .error e
              | .error e => .error e
            else .error (.msg "tag payload not a byte string")
          | .error e => .error e
      else .error (.msg "unknown tag")
    | .error e => .error e
  else
    if b0 % 32 = 20 then .ok (.bool false, rest0)
    else if b0 % 32 = 21 then .ok (.bool true, rest0)
    else if b0 % 32 = 22 then .ok (.null, rest0)
    else if b0 % 32 = 25 ∨ b0 % 32 = 26 then
      .error (.unsupported "half or single precision float" b0)
    else if b0 % 32 = 27 then
      match readByte8 rest0 "float" with
      | .ok (d0, d1, d2, d3, d4, d5, d6, d7, r) =>
        if floatIsNan (beVal8 d0 d1 d2 d3 d4 d5 d6 d7) ∧
            beVal8 d0 d1 d2 d3 d4 d5 d6 d7 ≠ canonicalNan then
          .error (.msg "non-canonical NaN")
        else .ok (.float (beVal8 d0 d1 d2 d3 d4 d5 d6 d7), r)
      | .error e => .error e
    else .error (.unsupported "simple value" b0)

def decodeItem : Nat → List Nat → DItem
  | _, [] => .error (.eof "major type")
  | 0, b0 :: rest0 =>
    if b0 < 256 then
      decodeItemBody (fun _ => .error (.depthOverflow "depth")) 0 b0 rest0
    else .error (.msg "not a byte")
  | bd + 1, b0 :: rest0 =>
    if b0 < 256 then decodeItemBody (decodeItem bd) (bd + 1) b0 rest0
    else .error (.msg "not a byte")

/-- `from_slice`: decode a single top-level item, rejecting trailing data,
with the default depth limit 128. -/
def fromSlice (bytes : List Nat) : DRes Value :=
  match decodeItem 128 bytes with
  | .ok (v, []) => .ok v
  | .ok (_, _ :: _) => .error .trailingData
  | .error e => .error e

/-- Claim C7: encoding a `Value::Integer` whose value lies outside
`[-2^64, 2^64-1]` (while representable in the 128-bit container) returns an
error instead of a truncated encoding. -/
theorem integer_out_of_range_fails (i : Int)
    (hc : -(2 ^ 127) ≤ i ∧ i < 2 ^ 127)
    (h : i < -(2 ^ 64) ∨ (2 ^ 64 - 1 : Int) < i) :
    encodeValue (.integer i) = .error (.msg "integer out of range") := by
  rw [encodeValue]
  rw [if_neg (by omega), if_neg (by omega)]

/-- Witness for C7 at `2^64` and `-(2^64) - 1`. -/
theorem integer_out_of_range_fails_witness :
    encodeValue (.integer (2 ^ 64)) = .error (.msg "integer out of range") ∧
    encodeValue (.integer (-(2 ^ 64) - 1)) = .error (.msg "integer out of range") :=
  ⟨integer_out_of_range_fails (2 ^ 64) (by constructor <;> decide)
      (Or.inr (by decide)),
    integer_out_of_range_fails (-(2 ^ 64) - 1) (by constructor <;> decide)
      (Or.inl (by decide))⟩

/-- Counterexample to claim C6 as stated: encoding the signalling NaN
pattern `0x7ff0000000000001` fails, but the error is the `Msg` kind — the
`EncodeError` enum of `src/drisl/error.rs` has only the kinds `Msg` and
`Write`, and none named `SignallingNan`. -/
theorem signalling_nan_kind_counterexample :
    encodeValue (.float 0x7ff0000000000001) = .error (.msg "signalling NaN") ∧
    EncodeError.kindName (.msg "signalling NaN") = "Msg" ∧
    EncodeError.kindName (.msg "signalling NaN") ≠ "SignallingNan" ∧
    EncodeError.kindName .write ≠ "SignallingNan" :=
  ⟨rfl, rfl, by decide, by decide⟩

/-- Claim C6 as amended: encoding any signalling-NaN bit pattern fails (it
is not normalized to the canonical quiet NaN and emitted); the failure is
reported through the `Msg` kind, `EncodeError` having no `SignallingNan`
kind. -/
theorem signalling_nan_fails (bits : Nat) (h : floatIsSigNan bits = true) :
    encodeValue (.float bits) = .error (.msg "signalling NaN") := by
  rw [encodeValue]
  rw [if_pos h]

/-- Witness for the amended C6 at the pattern `0x7ff0000000000001`. -/
theorem signalling_nan_fails_witness :
    encodeValue (.float 0x7ff0000000000001) = .error (.msg "signalling NaN") :=
  signalling_nan_fails 0x7ff0000000000001 (by decide)

/-- Counterexample to claim C5 as stated: single-item decode of
`0x18 0x17` fails, but with the `Msg` kind — the `DecodeError` enum of
`src/drisl/error.rs` contains no kind named `NonMinimal`. -/
theorem nonminimal_kind_counterexample :
    fromSlice [0x18, 0x17] = .error (.msg "non-minimal") ∧
    DecodeError.kindName (.msg "non-minimal") = "Msg" ∧
    ("NonMinimal" ∈ decodeErrorKindNames) = False :=
  ⟨rfl, rfl, by simp [decodeErrorKindNames]⟩

/-- Claim C5 as amended: decoding `0x18 0x17` (the integer 23 in
non-minimal one-byte form) fails; since the `DecodeError` enum has no
`NonMinimal` kind, the failure is reported through its catch-all `Msg`
kind, and no `DecodeError` value has the kind name `NonMinimal`. -/
theorem nonminimal_rejected :
    fromSlice [0x18, 0x17] = .error (.msg "non-minimal") ∧
    (∀ e : DecodeError, e.kindName ≠ "NonMinimal") :=
  ⟨rfl, fun e => by cases e <;> simp [DecodeError.kindName]⟩

theorem lexLeB_trans (x y z : List Nat) (h : lexLeB x y = true)
    (h2 : lexLeB y z = true) : lexLeB x z = true := by
  rcases Bool.or_eq_true_iff.mp h with h1 | h1
  · rcases Bool.or_eq_true_iff.mp h2 with h3 | h3
    · simp [lexLeB, lexLtB_trans x y z h1 h3]
    · have : y = z := by simpa using h3
      subst this
      simp [lexLeB, h1]
  · have : x = y := by simpa using h1
    subst this
    exact h2

theorem encHead_length (m n : Nat) : (encHead m n).length =
    if n < 24 then 1 else if n < 2 ^ 8 then 2 else if n < 2 ^ 16 then 3
    else if n < 2 ^ 32 then 5 else 9 := by
  unfold encHead
  split_ifs <;> rfl

theorem textKeyEnc_inj {k1 k2 : List Nat} (h : textKeyEnc k1 = textKeyEnc k2) :
    k1 = k2 := by
  have hlen : k1.length = k2.length := by
    have h2 := congrArg List.length h
    simp only [textKeyEnc, List.length_append, encHead_length] at h2
    split_ifs at h2 <;> omega
  unfold textKeyEnc at h
  rw [hlen] at h
  exact (List.append_inj h (by rfl)).2

theorem encodeEntries_fst : ∀ (es : List (List Nat × Value))
    (pairs : List (List Nat × List Nat)), encodeEntries es = .ok pairs →
    pairs.map Prod.fst = es.map (fun e => textKeyEnc e.1)
  | [], pairs, h => by
    rw [encodeEntries] at h
    cases h
    rfl
  | (k, v) :: es, pairs, h => by
    rw [encodeEntries] at h
    cases hv : encodeValue v with
    | error e => rw [hv] at h; cases h
    | ok a =>
      cases hes : encodeEntries es with
      | error e => rw [hv, hes] at h; cases h
      | ok b =>
        rw [hv, hes] at h
        cases h
        simp [encodeEntries_fst es b hes]

/-- Claim C2: the encoder emits map entries sorted ascending by the byte
representation of the encoded key string (length prefix included); in
particular `{"b": 1, "a": 2}` encodes to `a2 61 61 02 61 62 01`, and for
keys of differing lengths `"b"` sorts before `"aa"`.  The `Value.map`
arguments carry the entries in `BTreeMap` iteration order (plain
byte-lexicographic key order). -/
theorem map_entries_sorted_by_encoded_key :
    (∀ (es : List (List Nat × Value)) (pairs : List (List Nat × List Nat)),
      es.Pairwise (fun e1 e2 => e1.1 ≠ e2.1) →
      encodeEntries es = .ok pairs →
      encodeValue (.map es) = .ok (encHead 5 es.length ++
        ((insSortBy (fun p q => lexLeB p.1 q.1) pairs).map
          (fun p => p.1 ++ p.2)).flatten) ∧
      (insSortBy (fun p q => lexLeB p.1 q.1) pairs).Pairwise
        (fun p q => lexLtB p.1 q.1 = true)) ∧
    encodeValue (.map [([0x61], .integer 2), ([0x62], .integer 1)]) =
      .ok [0xa2, 0x61, 0x61, 0x02, 0x61, 0x62, 0x01] ∧
    encodeValue (.map [([0x61, 0x61], .integer 2), ([0x62], .integer 1)]) =
      .ok [0xa2, 0x61, 0x62, 0x01, 0x62, 0x61, 0x61, 0x02] := by
  refine ⟨?_, rfl, rfl⟩
  intro es pairs hne hpairs
  constructor
  · rw [encodeValue, hpairs]
  · have htot : ∀ p q : List Nat × List Nat,
        lexLeB p.1 q.1 = true ∨ lexLeB q.1 p.1 = true :=
      fun p q => lexLeB_total p.1 q.1
    have htrans : ∀ p q r : List Nat × List Nat, lexLeB p.1 q.1 = true →
        lexLeB q.1 r.1 = true → lexLeB p.1 r.1 = true :=
      fun p q r => lexLeB_trans p.1 q.1 r.1
    have hsorted := insSortBy_pairwise (fun p q => lexLeB p.1 q.1) htot htrans pairs
    have hpfst : pairs.Pairwise (fun p q => p.1 ≠ q.1) := by
      have hmap : pairs.map Prod.fst = es.map (fun e => textKeyEnc e.1) :=
        encodeEntries_fst es pairs hpairs
      have hes2 : (es.map (fun e => textKeyEnc e.1)).Pairwise (· ≠ ·) := by
        rw [List.pairwise_map]
        exact hne.imp (fun hne2 heq => hne2 (textKeyEnc_inj heq))
      rw [← hmap, List.pairwise_map] at hes2
      exact hes2
    have hperm := insSortBy_perm (fun p q => lexLeB p.1 q.1) pairs
    have hsne : (insSortBy (fun p q => lexLeB p.1 q.1) pairs).Pairwise
        (fun p q => p.1 ≠ q.1) := by
      refine (List.Perm.pairwise_iff ?_ hperm).mpr hpfst
      intro a b hab heq
      exact hab heq.symm
    exact (hsorted.and hsne).imp
      (fun hx => lexLtB_of_le_of_ne hx.1 hx.2)

/-- Witness for C2's universally quantified part at a concrete map. -/
theorem map_entries_sorted_by_encoded_key_witness :
    encodeValue (.map [([0x61, 0x61], .integer 2), ([0x62], .integer 1)]) =
      .ok (encHead 5 2 ++
        ((insSortBy (fun p q => lexLeB p.1 q.1)
            [([0x62, 0x61, 0x61], [0x02]), ([0x61, 0x62], [0x01])]).map
          (fun p => p.1 ++ p.2)).flatten) ∧
    (insSortBy (fun p q => lexLeB p.1 q.1)
        [([0x62, 0x61, 0x61], [0x02]), ([0x61, 0x62], [0x01])]).Pairwise
      (fun p q => lexLtB p.1 q.1 = true) :=
  map_entries_sorted_by_encoded_key.1
    [([0x61, 0x61], .integer 2), ([0x62], .integer 1)]
    [([0x62, 0x61, 0x61], [0x02]), ([0x61, 0x62], [0x01])]
    (by simp) rfl

theorem readByte_ok {bs r : List Nat} {b : Nat} {name : String}
    (h : readByte bs name = .ok (b, r)) : bs = b :: r ∧ b < 256 := by
  cases bs with
  | nil => exact Except.noConfusion h
  | cons x xs =>
    rw [show readByte (x :: xs) name =
      (if x < 256 then Except.ok (x, xs)
        else Except.error (DecodeError.msg "not a byte")) from rfl] at h
    split_ifs at h with hb
    simp only [Except.ok.injEq, Prod.mk.injEq] at h
    obtain ⟨rfl, rfl⟩ := h
    exact ⟨rfl, hb⟩

theorem readByte2_ok {bs r : List Nat} {a b : Nat} {name : String}
    (h : readByte2 bs name = .ok (a, b, r)) :
    bs = a :: b :: r ∧ a < 256 ∧ b < 256 := by
  unfold readByte2 at h
  cases h1 : readByte bs name with
  | error e => simp only [h1] at h; exact Except.noConfusion h
  | ok p =>
    obtain ⟨x, r1⟩ := p
    simp only [h1] at h
    cases h2 : readByte r1 name with
    | error e => simp only [h2] at h; exact Except.noConfusion h
    | ok q =>
      obtain ⟨y, r2⟩ := q
      simp only [h2, Except.ok.injEq, Prod.mk.injEq] at h
      obtain ⟨rfl, rfl, rfl⟩ := h
      obtain ⟨hbs, hx⟩ := readByte_ok h1
      obtain ⟨hr1, hy⟩ := readByte_ok h2
      subst hbs
      subst hr1
      exact ⟨rfl, hx, hy⟩

theorem readByte4_ok {bs r : List Nat} {a b c d : Nat} {name : String}
    (h : readByte4 bs name = .ok (a, b, c, d, r)) :
    bs = a :: b :: c :: d :: r ∧ a < 256 ∧ b < 256 ∧ c < 256 ∧ d < 256 := by
  unfold readByte4 at h
  cases h1 : readByte2 bs name with
  | error e => simp only [h1] at h; exact Except.noConfusion h
  | ok p =>
    obtain ⟨x, y, r1⟩ := p
    simp only [h1] at h
    cases h2 : readByte2 r1 name with
    | error e => simp only [h2] at h; exact Except.noConfusion h
    | ok q =>
      obtain ⟨z, w, r2⟩ := q
      simp only [h2, Except.ok.injEq, Prod.mk.injEq] at h
      obtain ⟨rfl, rfl, rfl, rfl, rfl⟩ := h
      obtain ⟨hbs, hx, hy⟩ := readByte2_ok h1
      obtain ⟨hr1, hz, hw⟩ := readByte2_ok h2
      subst hbs
      subst hr1
      exact ⟨rfl, hx, hy, hz, hw⟩

theorem readByte8_ok {bs r : List Nat} {a b c d e f g k : Nat} {name : String}
    (h : readByte8 bs name = .ok (a, b, c, d, e, f, g, k, r)) :
    bs = a :: b :: c :: d :: e :: f :: g :: k :: r ∧ a < 256 ∧ b < 256 ∧
      c < 256 ∧ d < 256 ∧ e < 256 ∧ f < 256 ∧ g < 256 ∧ k < 256 := by
  unfold readByte8 at h
  cases h1 : readByte4 bs name with
  | error err => simp only [h1] at h; exact Except.noConfusion h
  | ok p =>
    obtain ⟨x1, x2, x3, x4, r1⟩ := p
    simp only [h1] at h
    cases h2 : readByte4 r1 name with
    | error err => simp only [h2] at h; exact Except.noConfusion h
    | ok q =>
      obtain ⟨y1, y2, y3, y4, r2⟩ := q
      simp only [h2, Except.ok.injEq, Prod.mk.injEq] at h
      obtain ⟨rfl, rfl, rfl, rfl, rfl, rfl, rfl, rfl, rfl⟩ := h
      obtain ⟨hbs, hx1, hx2, hx3, hx4⟩ := readByte4_ok h1
      obtain ⟨hr1, hy1, hy2, hy3, hy4⟩ := readByte4_ok h2
      subst hbs
      subst hr1
      exact ⟨rfl, hx1, hx2, hx3, hx4, hy1, hy2, hy3, hy4⟩

theorem takeN_ok : ∀ (n : Nat) (bs l r : List Nat) (name : String),
    takeN n bs name = .ok (l, r) → bs = l ++ r ∧ l.length = n
  | 0, bs, l, r, name, h => by
    rw [takeN] at h
    simp only [Except.ok.injEq, Prod.mk.injEq] at h
    obtain ⟨rfl, rfl⟩ := h
    simp
  | n + 1, [], l, r, name, h => by
    rw [takeN] at h
    exact Except.noConfusion h
  | n + 1, b :: bs, l, r, name, h => by
    rw [takeN] at h
    cases h1 : takeN n bs name with
    | error e => simp only [h1] at h; exact Except.noConfusion h
    | ok p =>
      obtain ⟨l2, r2⟩ := p
      simp only [h1, Except.ok.injEq, Prod.mk.injEq] at h
      obtain ⟨rfl, rfl⟩ := h
      obtain ⟨hbs, hlen⟩ := takeN_ok n bs l2 r2 name h1
      subst hbs
      simp [hlen]

set_option maxHeartbeats 1000000 in
theorem readUintArg_ok (b0 : Nat) (hb0 : b0 < 256) (rest r : List Nat)
    (n : Nat) (name : String)
    (h : readUintArg (b0 % 32) rest name = .ok (n, r)) :
    n < 2 ^ 64 ∧ encHead (b0 / 32) n ++ r = b0 :: rest := by
  unfold readUintArg at h
  split_ifs at h with h24 he24 he25 he26 he27 he31 <;>
    try exact Except.noConfusion h
  · -- immediate form
    simp only [Except.ok.injEq, Prod.mk.injEq] at h
    obtain ⟨rfl, rfl⟩ := h
    refine ⟨by omega, ?_⟩
    unfold encHead
    rw [if_pos h24]
    simp only [List.cons_append, List.nil_append, List.cons.injEq, and_true]
    omega
  · -- one-byte argument
    cases hrb : readByte rest name with
    | error e => simp only [hrb] at h; exact Except.noConfusion h
    | ok p =>
      obtain ⟨b1, r1⟩ := p
      simp only [hrb] at h
      obtain ⟨hrest, hb1⟩ := readByte_ok hrb
      subst hrest
      rcases Nat.lt_or_ge b1 24 with hlt | hge
      · rw [if_pos hlt] at h; exact Except.noConfusion h
      · rw [if_neg (by omega)] at h
        simp only [Except.ok.injEq, Prod.mk.injEq] at h
        obtain ⟨rfl, rfl⟩ := h
        refine ⟨by omega, ?_⟩
        unfold encHead
        rw [if_neg (by omega), if_pos (by omega)]
        simp only [List.cons_append, List.nil_append, List.cons.injEq, and_true]
        omega
  · -- two-byte argument
    cases hrb : readByte2 rest name with
    | error e => simp only [hrb] at h; exact Except.noConfusion h
    | ok p =>
      obtain ⟨b1, b2, r1⟩ := p
      simp only [hrb] at h
      obtain ⟨hrest, hb1, hb2⟩ := readByte2_ok hrb
      subst hrest
      rcases Nat.lt_or_ge (b1 * 2 ^ 8 + b2) (2 ^ 8) with hlt | hge
      · rw [if_pos hlt] at h; exact Except.noConfusion h
      · rw [if_neg (by omega)] at h
        simp only [Except.ok.injEq, Prod.mk.injEq] at h
        obtain ⟨rfl, rfl⟩ := h
        refine ⟨by omega, ?_⟩
        unfold encHead
        rw [if_neg (by omega), if_neg (by omega), if_pos (by omega)]
        simp only [List.cons_append, List.nil_append, List.cons.injEq, and_true]
        omega
  · -- four-byte argument
    cases hrb : readByte4 rest name with
    | error e => simp only [hrb] at h; exact Except.noConfusion h
    | ok p =>
      obtain ⟨b1, b2, b3, b4, r1⟩ := p
      simp only [hrb] at h
      obtain ⟨hrest, hb1, hb2, hb3, hb4⟩ := readByte4_ok hrb
      subst hrest
      rcases Nat.lt_or_ge (b1 * 2 ^ 24 + b2 * 2 ^ 16 + b3 * 2 ^ 8 + b4)
          (2 ^ 16) with hlt | hge
      · rw [if_pos hlt] at h; exact Except.noConfusion h
      · rw [if_neg (by omega)] at h
        simp only [Except.ok.injEq, Prod.mk.injEq] at h
        obtain ⟨rfl, rfl⟩ := h
        refine ⟨by omega, ?_⟩
        unfold encHead
        rw [if_neg (by omega), if_neg (by omega), if_neg (by omega),
          if_pos (by omega)]
        simp only [List.cons_append, List.nil_append, List.cons.injEq, and_true]
        omega
  · -- eight-byte argument
    cases hrb : readByte8 rest name with
    | error e => simp only [hrb] at h; exact Except.noConfusion h
    | ok p =>
      obtain ⟨b1, b2, b3, b4, b5, b6, b7, b8, r1⟩ := p
      simp only [hrb] at h
      obtain ⟨hrest, hb1, hb2, hb3, hb4, hb5, hb6, hb7, hb8⟩ := readByte8_ok hrb
      subst hrest
      rcases Nat.lt_or_ge (b1 * 2 ^ 56 + b2 * 2 ^ 48 + b3 * 2 ^ 40 +
          b4 * 2 ^ 32 + b5 * 2 ^ 24 + b6 * 2 ^ 16 + b7 * 2 ^ 8 + b8)
          (2 ^ 32) with hlt | hge
      · rw [if_pos hlt] at h; exact Except.noConfusion h
      · rw [if_neg (by omega)] at h
        simp only [Except.ok.injEq, Prod.mk.injEq] at h
        obtain ⟨rfl, rfl⟩ := h
        refine ⟨by omega, ?_⟩
        unfold encHead
        rw [if_neg (by omega), if_neg (by omega), if_neg (by omega),
          if_neg (by omega)]
        simp only [List.cons_append, List.nil_append, List.cons.injEq, and_true]
        omega

theorem decodeItemsAux_ok (dec : List Nat → DItem)
    (hdec : ∀ bytes v r, dec bytes = .ok (v, r) →
      ∃ out, encodeValue v = .ok out ∧ bytes = out ++ r) :
    ∀ (n : Nat) (bs : List Nat) (vs : List Value) (rest : List Nat),
      decodeItemsAux dec n bs = .ok (vs, rest) →
      ∃ outs, encodeList vs = .ok outs ∧ bs = outs.flatten ++ rest ∧
        vs.length = n
  | 0, bs, vs, rest, h => by
    rw [decodeItemsAux] at h
    simp only [Except.ok.injEq, Prod.mk.injEq] at h
    obtain ⟨rfl, rfl⟩ := h
    exact ⟨[], rfl, by simp, rfl⟩
  | n + 1, bs, vs, rest, h => by
    rw [decodeItemsAux] at h
    cases h1 : dec bs with
    | error e => simp only [h1] at h; exact Except.noConfusion h
    | ok p =>
      obtain ⟨v, r⟩ := p
      simp only [h1] at h
      cases h2 : decodeItemsAux dec n r with
      | error e => simp only [h2] at h; exact Except.noConfusion h
      | ok q =>
        obtain ⟨vs2, r2⟩ := q
        simp only [h2, Except.ok.injEq, Prod.mk.injEq] at h
        obtain ⟨rfl, rfl⟩ := h
        obtain ⟨out, hout, hbs⟩ := hdec bs v r h1
        obtain ⟨outs, houts, hr, hlen⟩ :=
          decodeItemsAux_ok dec hdec n r vs2 r2 h2
        refine ⟨out :: outs, ?_, ?_, by simp [hlen]⟩
        · rw [encodeList]
          simp only [hout, houts]
        · subst hbs
          subst hr
          simp

theorem decodeEntriesAux_ok (dec : List Nat → DItem)
    (hdec : ∀ bytes v r, dec bytes = .ok (v, r) →
      ∃ out, encodeValue v = .ok out ∧ bytes = out ++ r) :
    ∀ (prev : Option (List Nat)) (n : Nat) (bs : List Nat)
      (es : List (List Nat × Value)) (rest : List Nat),
      decodeEntriesAux dec prev n bs = .ok (es, rest) →
      ∃ pairs, encodeEntries es = .ok pairs ∧
        bs = (pairs.map (fun p => p.1 ++ p.2)).flatten ++ rest ∧
        es.length = n ∧
        (pairs.map Prod.fst).Pairwise (fun a b => lexLtB a b = true) ∧
        (∀ pk, prev = some pk → ∀ q ∈ pairs.map Prod.fst, lexLtB pk q = true)
  | prev, 0, bs, es, rest, h => by
    rw [decodeEntriesAux] at h
    simp only [Except.ok.injEq, Prod.mk.injEq] at h
    obtain ⟨rfl, rfl⟩ := h
    exact ⟨[], rfl, by simp, rfl, by simp, by simp⟩
  | prev, n + 1, bs, es, rest, h => by
    rw [decodeEntriesAux] at h
    cases hrb : readByte bs "map key" with
    | error e => simp only [hrb] at h; exact Except.noConfusion h
    | ok p0 =>
      obtain ⟨b0, r0⟩ := p0
      simp only [hrb] at h
      split_ifs at h with hmaj <;> try exact Except.noConfusion h
      cases harg : readUintArg (b0 % 32) r0 "map key" with
      | error e => simp only [harg] at h; exact Except.noConfusion h
      | ok p1 =>
        obtain ⟨klen, r1⟩ := p1
        simp only [harg] at h
        cases htk : takeN klen r1 "map key" with
        | error e => simp only [htk] at h; exact Except.noConfusion h
        | ok p2 =>
          obtain ⟨k, r2⟩ := p2
          simp only [htk] at h
          split_ifs at h with hutf hord <;> try exact Except.noConfusion h
          cases hv : dec r2 with
          | error e => simp only [hv] at h; exact Except.noConfusion h
          | ok p3 =>
            obtain ⟨v, r3⟩ := p3
            simp only [hv] at h
            cases hes : decodeEntriesAux dec (some (textKeyEnc k)) n r3 with
            | error e => simp only [hes] at h; exact Except.noConfusion h
            | ok p4 =>
              obtain ⟨es2, r4⟩ := p4
              simp only [hes, Except.ok.injEq, Prod.mk.injEq] at h
              obtain ⟨rfl, rfl⟩ := h
              obtain ⟨hbs0, hb0lt⟩ := readByte_ok hrb
              obtain ⟨hn64, hhead⟩ :=
                readUintArg_ok b0 hb0lt r0 r1 klen "map key" harg
              rw [hmaj] at hhead
              obtain ⟨hr1, hklen⟩ := takeN_ok klen r1 k r2 "map key" htk
              obtain ⟨out, hout, hr2⟩ := hdec r2 v r3 hv
              obtain ⟨pairs2, hpairs2, hr3, hlen2, hpw2, hprev2⟩ :=
                decodeEntriesAux_ok dec hdec (some (textKeyEnc k)) n r3 es2 r4 hes
              refine ⟨(textKeyEnc k, out) :: pairs2, ?_, ?_, by simp [hlen2],
                ?_, ?_⟩
              · rw [encodeEntries]
                simp only [hout, hpairs2]
              · subst hbs0
                subst hr1
                subst hr2
                subst hr3
                rw [← hhead]
                simp [textKeyEnc, hklen, List.append_assoc]
              · simp only [List.map_cons]
                exact List.pairwise_cons.mpr
                  ⟨fun q hq => hprev2 (textKeyEnc k) rfl q hq, hpw2⟩
              · intro pk hpk q hq
                subst hpk
                have hpkk : lexLtB pk (textKeyEnc k) = true := by
                  simpa [prevOk] using hord
                simp only [List.map_cons, List.mem_cons] at hq
                rcases hq with rfl | hq2
                · exact hpkk
                · exact lexLtB_trans pk (textKeyEnc k) q hpkk
                    (hprev2 (textKeyEnc k) rfl q hq2)

/-- The encoded pair of one map entry, when its value encodes. -/
def entryPair (e : List Nat × Value) : Option (List Nat × List Nat) :=
  match encodeValue e.2 with
  | .ok a => some (textKeyEnc e.1, a)
  | .error _ => none

theorem encodeEntries_entryPair : ∀ (es : List (List Nat × Value))
    (pairs : List (List Nat × List Nat)), encodeEntries es = .ok pairs →
    pairs = es.map (fun e => (entryPair e).getD ([], [])) ∧
      ∀ e ∈ es, (entryPair e).isSome
  | [], pairs, h => by
    rw [encodeEntries] at h
    cases h
    exact ⟨rfl, by simp⟩
  | (k, v) :: es, pairs, h => by
    rw [encodeEntries] at h
    cases hv : encodeValue v with
    | error e => simp only [hv] at h; exact Except.noConfusion h
    | ok a =>
      cases hes : encodeEntries es with
      | error e => simp only [hv, hes] at h; exact Except.noConfusion h
      | ok b =>
        simp only [hv, hes, Except.ok.injEq] at h
        subst h
        obtain ⟨hmap, hsome⟩ := encodeEntries_entryPair es b hes
        have hep : entryPair (k, v) = some (textKeyEnc k, a) := by
          unfold entryPair
          rw [hv]
        constructor
        · simp only [List.map_cons, hep, Option.getD_some]
          rw [hmap]
        · intro e he
          rcases List.mem_cons.mp he with rfl | he2
          · simp [hep]
          · exact hsome e he2

theorem entryPair_encodeEntries : ∀ es : List (List Nat × Value),
    (∀ e ∈ es, (entryPair e).isSome) →
    encodeEntries es = .ok (es.map (fun e => (entryPair e).getD ([], [])))
  | [], _ => rfl
  | (k, v) :: es, hsome => by
    have hh := hsome (k, v) (by simp)
    rw [encodeEntries]
    cases hv : encodeValue v with
    | error e =>
      exfalso
      unfold entryPair at hh
      rw [hv] at hh
      simp at hh
    | ok a =>
      have hep : entryPair (k, v) = some (textKeyEnc k, a) := by
        unfold entryPair
        rw [hv]
      rw [entryPair_encodeEntries es (fun e he => hsome e (by simp [he]))]
      simp [hep]

/-- Transporting a successful `encodeEntries` across a permutation of the
entries: the resulting pairs are the corresponding permutation. -/
theorem encodeEntries_perm {es es' : List (List Nat × Value)}
    (hp : List.Perm es es') (pairs : List (List Nat × List Nat))
    (h : encodeEntries es = .ok pairs) :
    ∃ pairs', encodeEntries es' = .ok pairs' ∧ List.Perm pairs pairs' := by
  obtain ⟨hmap, hsome⟩ := encodeEntries_entryPair es pairs h
  have hsome2 : ∀ e ∈ es', (entryPair e).isSome := fun e he =>
    hsome e (hp.mem_iff.mpr he)
  refine ⟨es'.map (fun e => (entryPair e).getD ([], [])),
    entryPair_encodeEntries es' hsome2, ?_⟩
  rw [hmap]
  exact hp.map _

theorem sig_imp_nan (bits : Nat) (h : floatIsSigNan bits = true) :
    floatIsNan bits = true := by
  unfold floatIsSigNan at h
  simp only [decide_eq_true_eq] at h
  exact h.1

theorem canonicalNan_not_sig : floatIsSigNan canonicalNan = false := by decide

theorem be8_beVal8 (d0 d1 d2 d3 d4 d5 d6 d7 : Nat) (h0 : d0 < 256)
    (h1 : d1 < 256) (h2 : d2 < 256) (h3 : d3 < 256) (h4 : d4 < 256)
    (h5 : d5 < 256) (h6 : d6 < 256) (h7 : d7 < 256) :
    be8 (beVal8 d0 d1 d2 d3 d4 d5 d6 d7) = [d0, d1, d2, d3, d4, d5, d6, d7] := by
  unfold be8 beVal8
  simp only [List.cons.injEq, and_true]
  omega

/-- Re-sorting a permutation of wire-ordered pairs by encoded key recovers
the wire order: the wire pairs are strictly ascending, and a sorted
permutation of a strictly-sorted list is that list. -/
theorem sorted_pairs_eq (pairs pairs' : List (List Nat × List Nat))
    (hperm : List.Perm pairs pairs')
    (hpw : (pairs.map Prod.fst).Pairwise (fun a b => lexLtB a b = true)) :
    insSortBy (fun p q => lexLeB p.1 q.1) pairs' = pairs := by
  have htot : ∀ x y : List Nat × List Nat,
      lexLeB x.1 y.1 = true ∨ lexLeB y.1 x.1 = true :=
    fun x y => lexLeB_total x.1 y.1
  have htrans : ∀ x y z : List Nat × List Nat, lexLeB x.1 y.1 = true →
      lexLeB y.1 z.1 = true → lexLeB x.1 z.1 = true :=
    fun x y z => lexLeB_trans x.1 y.1 z.1
  have hsorted := insSortBy_pairwise (fun p q => lexLeB p.1 q.1) htot htrans pairs'
  have hpermAll : List.Perm (insSortBy (fun p q => lexLeB p.1 q.1) pairs') pairs :=
    (insSortBy_perm _ pairs').trans hperm.symm
  have hpairsStrict : pairs.Pairwise (fun p q => lexLtB p.1 q.1 = true) :=
    List.pairwise_map.mp hpw
  have hpairsNe : pairs.Pairwise (fun p q => p.1 ≠ q.1) :=
    hpairsStrict.imp (fun h heq => by
      rw [heq] at h
      rw [lexLtB_irrefl] at h
      exact Bool.noConfusion h)
  have hsortNe : (insSortBy (fun p q => lexLeB p.1 q.1) pairs').Pairwise
      (fun p q => p.1 ≠ q.1) := by
    refine (List.Perm.pairwise_iff ?_ hpermAll).mpr hpairsNe
    intro a b hab heq
    exact hab heq.symm
  have hsortStrict : (insSortBy (fun p q => lexLeB p.1 q.1) pairs').Pairwise
      (fun p q => lexLtB p.1 q.1 = true) :=
    (hsorted.and hsortNe).imp (fun h => lexLtB_of_le_of_ne h.1 h.2)
  haveI : IsAntisymm (List Nat × List Nat) (fun p q => lexLtB p.1 q.1 = true) :=
    ⟨fun a b hab hba => absurd (lexLtB_asymm a.1 b.1 hab hba) not_false⟩
  exact List.eq_of_perm_of_sorted hpermAll hsortStrict hpairsStrict

theorem decodeItem_cons (budget b0 : Nat) (rest0 : List Nat) :
    decodeItem budget (b0 :: rest0) =
      if b0 < 256 then
        decodeItemBody
          (match budget with
           | 0 => fun _ => Except.error (DecodeError.depthOverflow "depth")
           | bd + 1 => decodeItem bd)
          budget b0 rest0
      else .error (.msg "not a byte") := by
  cases budget <;> rfl

set_option maxHeartbeats 4000000 in
/-- Every successful decode re-encodes to exactly the bytes consumed. -/
theorem decode_encode_aux : ∀ (budget : Nat) (bytes : List Nat) (v : Value)
    (rest : List Nat), decodeItem budget bytes = .ok (v, rest) →
    ∃ out, encodeValue v = .ok out ∧ bytes = out ++ rest := by
  intro budget
  induction budget using Nat.strong_induction_on with
  | _ budget ih =>
    intro bytes v rest h
    cases bytes with
    | nil => cases budget <;> exact Except.noConfusion h
    | cons b0 rest0 =>
      rw [decodeItem_cons] at h
      rcases Nat.lt_or_ge b0 256 with hb0 | hb0ge
      case inr => rw [if_neg (by omega)] at h; exact Except.noConfusion h
      rw [if_pos hb0] at h
      delta decodeItemBody at h
      have hmaj : b0 / 32 = 0 ∨ b0 / 32 = 1 ∨ b0 / 32 = 2 ∨ b0 / 32 = 3 ∨
          b0 / 32 = 4 ∨ b0 / 32 = 5 ∨ b0 / 32 = 6 ∨ b0 / 32 = 7 := by omega
      rcases hmaj with hm0 | hm1 | hm2 | hm3 | hm4 | hm5 | hm6 | hm7
      · -- major 0: unsigned integer
        rw [if_pos hm0] at h
        cases harg : readUintArg (b0 % 32) rest0 "unsigned" with
        | error e => simp only [harg] at h; exact Except.noConfusion h
        | ok p1 =>
          obtain ⟨n, r⟩ := p1
          simp only [harg, Except.ok.injEq, Prod.mk.injEq] at h
          obtain ⟨rfl, rfl⟩ := h
          obtain ⟨hn64, hhead⟩ := readUintArg_ok b0 hb0 rest0 r n "unsigned" harg
          rw [hm0] at hhead
          refine ⟨encHead 0 n, ?_, hhead.symm⟩
          rw [encodeValue]
          simp only [Int.ofNat_eq_natCast]
          rw [if_pos (by constructor <;> omega :
            (0 : Int) ≤ (n : Int) ∧ (n : Int) < 2 ^ 64)]
          simp
      · -- major 1: negative integer
        rw [if_neg (by omega), if_pos hm1] at h
        cases harg : readUintArg (b0 % 32) rest0 "negative" with
        | error e => simp only [harg] at h; exact Except.noConfusion h
        | ok p1 =>
          obtain ⟨n, r⟩ := p1
          simp only [harg, Except.ok.injEq, Prod.mk.injEq] at h
          obtain ⟨rfl, rfl⟩ := h
          obtain ⟨hn64, hhead⟩ := readUintArg_ok b0 hb0 rest0 r n "negative" harg
          rw [hm1] at hhead
          refine ⟨encHead 1 n, ?_, hhead.symm⟩
          rw [encodeValue]
          simp only [Int.ofNat_eq_natCast]
          rw [if_neg (by omega), if_pos (by constructor <;> omega)]
          have harg2 : (-1 - (-1 - (n : Int))).toNat = n := by omega
          rw [harg2]
      · -- major 2: byte string
        rw [if_neg (by omega), if_neg (by omega), if_pos hm2] at h
        cases harg : readUintArg (b0 % 32) rest0 "bytes" with
        | error e => simp only [harg] at h; exact Except.noConfusion h
        | ok p1 =>
          obtain ⟨n, r⟩ := p1
          simp only [harg] at h
          cases htk : takeN n r "bytes" with
          | error e => simp only [htk] at h; exact Except.noConfusion h
          | ok p2 =>
            obtain ⟨content, r2⟩ := p2
            simp only [htk, Except.ok.injEq, Prod.mk.injEq] at h
            obtain ⟨rfl, rfl⟩ := h
            obtain ⟨hn64, hhead⟩ := readUintArg_ok b0 hb0 rest0 r n "bytes" harg
            rw [hm2] at hhead
            obtain ⟨hr, hclen⟩ := takeN_ok n r content r2 "bytes" htk
            refine ⟨encHead 2 content.length ++ content, ?_, ?_⟩
            · rw [encodeValue]
            · rw [hclen, ← hhead, hr]
              simp [List.append_assoc]
      · -- major 3: text string
        rw [if_neg (by omega), if_neg (by omega), if_neg (by omega),
          if_pos hm3] at h
        cases harg : readUintArg (b0 % 32) rest0 "text" with
        | error e => simp only [harg] at h; exact Except.noConfusion h
        | ok p1 =>
          obtain ⟨n, r⟩ := p1
          simp only [harg] at h
          cases htk : takeN n r "text" with
          | error e => simp only [htk] at h; exact Except.noConfusion h
          | ok p2 =>
            obtain ⟨content, r2⟩ := p2
            simp only [htk] at h
            split_ifs at h with hutf
            simp only [Except.ok.injEq, Prod.mk.injEq] at h
            obtain ⟨rfl, rfl⟩ := h
            obtain ⟨hn64, hhead⟩ := readUintArg_ok b0 hb0 rest0 r n "text" harg
            rw [hm3] at hhead
            obtain ⟨hr, hclen⟩ := takeN_ok n r content r2 "text" htk
            refine ⟨encHead 3 content.length ++ content, ?_, ?_⟩
            · rw [encodeValue]
            · rw [hclen, ← hhead, hr]
              simp [List.append_assoc]
      · -- major 4: array
        rw [if_neg (by omega), if_neg (by omega), if_neg (by omega),
          if_neg (by omega), if_pos hm4] at h
        cases harg : readUintArg (b0 % 32) rest0 "array" with
        | error e => simp only [harg] at h; exact Except.noConfusion h
        | ok p1 =>
          obtain ⟨n, r⟩ := p1
          simp only [harg] at h
          cases budget with
          | zero => exact Except.noConfusion h
          | succ bd =>
            cases hitems : decodeItemsAux (decodeItem bd) n r with
            | error e => simp only [hitems] at h; exact Except.noConfusion h
            | ok p2 =>
              obtain ⟨vs, r2⟩ := p2
              simp only [hitems, Except.ok.injEq, Prod.mk.injEq] at h
              obtain ⟨rfl, rfl⟩ := h
              obtain ⟨hn64, hhead⟩ := readUintArg_ok b0 hb0 rest0 r n "array" harg
              rw [hm4] at hhead
              have hdec : ∀ bytes v r, decodeItem bd bytes = .ok (v, r) →
                  ∃ out, encodeValue v = .ok out ∧ bytes = out ++ r :=
                fun bytes v r h2 => ih bd (Nat.lt_succ_self bd) bytes v r h2
              obtain ⟨outs, houts, hr, hlen⟩ :=
                decodeItemsAux_ok (decodeItem bd) hdec n r vs r2 hitems
              refine ⟨encHead 4 vs.length ++ outs.flatten, ?_, ?_⟩
              · rw [encodeValue]
                simp only [houts]
              · rw [hlen, ← hhead, hr]
                simp [List.append_assoc]
      · -- major 5: map
        rw [if_neg (by omega), if_neg (by omega), if_neg (by omega),
          if_neg (by omega), if_neg (by omega), if_pos hm5] at h
        cases harg : readUintArg (b0 % 32) rest0 "map" with
        | error e => simp only [harg] at h; exact Except.noConfusion h
        | ok p1 =>
          obtain ⟨n, r⟩ := p1
          simp only [harg] at h
          cases budget with
          | zero => exact Except.noConfusion h
          | succ bd =>
            cases hents : decodeEntriesAux (decodeItem bd) none n r with
            | error e => simp only [hents] at h; exact Except.noConfusion h
            | ok p2 =>
              obtain ⟨es, r2⟩ := p2
              simp only [hents, Except.ok.injEq, Prod.mk.injEq] at h
              obtain ⟨rfl, rfl⟩ := h
              obtain ⟨hn64, hhead⟩ := readUintArg_ok b0 hb0 rest0 r n "map" harg
              rw [hm5] at hhead
              have hdec : ∀ bytes v r, decodeItem bd bytes = .ok (v, r) →
                  ∃ out, encodeValue v = .ok out ∧ bytes = out ++ r :=
                fun bytes v r h2 => ih bd (Nat.lt_succ_self bd) bytes v r h2
              obtain ⟨pairs, hpairs, hr, hlen, hpw, -⟩ :=
                decodeEntriesAux_ok (decodeItem bd) hdec none n r es r2 hents
              have hperm : List.Perm es
                  (insSortBy (fun p q : List Nat × Value => lexLeB p.1 q.1) es) :=
                (insSortBy_perm _ es).symm
              obtain ⟨pairs', hpairs', hpp⟩ := encodeEntries_perm hperm pairs hpairs
              have hsortEq := sorted_pairs_eq pairs pairs' hpp hpw
              refine ⟨encHead 5
                  (insSortBy (fun p q : List Nat × Value => lexLeB p.1 q.1)
                    es).length ++
                ((insSortBy (fun p q : List Nat × List Nat => lexLeB p.1 q.1)
                    pairs').map (fun p => p.1 ++ p.2)).flatten, ?_, ?_⟩
              · rw [encodeValue]
                simp only [hpairs']
              · rw [hsortEq]
                have hlen2 :
                    (insSortBy (fun p q : List Nat × Value => lexLeB p.1 q.1)
                      es).length = n :=
                  (hperm.symm.length_eq).trans hlen
                rw [hlen2, ← hhead, hr]
                simp [List.append_assoc]
      · -- major 6: tag 42, CID
        rw [if_neg (by omega), if_neg (by omega), if_neg (by omega),
          if_neg (by omega), if_neg (by omega), if_neg (by omega),
          if_pos hm6] at h
        cases harg : readUintArg (b0 % 32) rest0 "tag" with
        | error e => simp only [harg] at h; exact Except.noConfusion h
        | ok p1 =>
          obtain ⟨n, r⟩ := p1
          simp only [harg] at h
          by_cases h42 : n = 42
          case neg => rw [if_neg h42] at h; exact Except.noConfusion h
          rw [if_pos h42] at h
          subst h42
          cases budget with
          | zero => exact Except.noConfusion h
          | succ bd =>
            cases hrb1 : readByte r "tag content" with
            | error e => simp only [hrb1] at h; exact Except.noConfusion h
            | ok p2 =>
              obtain ⟨b1, r1⟩ := p2
              simp only [hrb1] at h
              by_cases hb1div : b1 / 32 = 2
              case neg => rw [if_neg hb1div] at h; exact Except.noConfusion h
              rw [if_pos hb1div] at h
              cases harg2 : readUintArg (b1 % 32) r1 "tag content" with
              | error e => simp only [harg2] at h; exact Except.noConfusion h
              | ok p3 =>
                obtain ⟨len, r2⟩ := p3
                simp only [harg2] at h
                cases htk : takeN len r2 "tag content" with
                | error e => simp only [htk] at h; exact Except.noConfusion h
                | ok p4 =>
                  obtain ⟨content, r3⟩ := p4
                  simp only [htk] at h
                  cases content with
                  | nil => exact Except.noConfusion h
                  | cons c0 ctail =>
                    cases c0 with
                    | succ c0p => exact Except.noConfusion h
                    | zero =>
                      cases hcid : Cid.fromBytesRaw ctail with
                      | panics => simp only [hcid] at h; exact Except.noConfusion h
                      | err e => simp only [hcid] at h; exact Except.noConfusion h
                      | ok c =>
                        simp only [hcid, Except.ok.injEq, Prod.mk.injEq] at h
                        obtain ⟨rfl, rfl⟩ := h
                        obtain ⟨hn64, hhead⟩ :=
                          readUintArg_ok b0 hb0 rest0 r 42 "tag" harg
                        rw [hm6] at hhead
                        obtain ⟨hrb1d, hb1lt⟩ := readByte_ok hrb1
                        obtain ⟨hl64, hhead2⟩ :=
                          readUintArg_ok b1 hb1lt r1 r2 len "tag content" harg2
                        rw [hb1div] at hhead2
                        obtain ⟨hr2, hclen⟩ :=
                          takeN_ok len r2 (0 :: ctail) r3 "tag content" htk
                        have hab : c.asBytes = ctail :=
                          fromBytesRaw_asBytes ctail c hcid
                        refine ⟨0xd8 :: 42 :: encHead 2 (c.asBytes.length + 1) ++
                          0 :: c.asBytes, ?_, ?_⟩
                        · rw [encodeValue]
                        · rw [hab]
                          have hlen2 : ctail.length + 1 = len := by
                            simpa using hclen
                          rw [hlen2, ← hhead, hrb1d, ← hhead2, hr2]
                          simp [List.append_assoc, encHead]
      · -- major 7: simple values and floats
        rw [if_neg (by omega), if_neg (by omega), if_neg (by omega),
          if_neg (by omega), if_neg (by omega), if_neg (by omega),
          if_neg (by omega)] at h
        by_cases h20 : b0 % 32 = 20
        · rw [if_pos h20] at h
          simp only [Except.ok.injEq, Prod.mk.injEq] at h
          obtain ⟨rfl, rfl⟩ := h
          refine ⟨[0xf4], rfl, ?_⟩
          have : b0 = 0xf4 := by omega
          rw [this]
          rfl
        rw [if_neg h20] at h
        by_cases h21 : b0 % 32 = 21
        · rw [if_pos h21] at h
          simp only [Except.ok.injEq, Prod.mk.injEq] at h
          obtain ⟨rfl, rfl⟩ := h
          refine ⟨[0xf5], rfl, ?_⟩
          have : b0 = 0xf5 := by omega
          rw [this]
          rfl
        rw [if_neg h21] at h
        by_cases h22 : b0 % 32 = 22
        · rw [if_pos h22] at h
          simp only [Except.ok.injEq, Prod.mk.injEq] at h
          obtain ⟨rfl, rfl⟩ := h
          refine ⟨[0xf6], rfl, ?_⟩
          have : b0 = 0xf6 := by omega
          rw [this]
          rfl
        rw [if_neg h22] at h
        by_cases h2526 : b0 % 32 = 25 ∨ b0 % 32 = 26
        · rw [if_pos h2526] at h
          exact Except.noConfusion h
        rw [if_neg h2526] at h
        by_cases h27 : b0 % 32 = 27
        case neg => rw [if_neg h27] at h; exact Except.noConfusion h
        rw [if_pos h27] at h
        cases hrf : readByte8 rest0 "float" with
        | error e => simp only [hrf] at h; exact Except.noConfusion h
        | ok p1 =>
          obtain ⟨d0, d1, d2, d3, d4, d5, d6, d7, r⟩ := p1
          simp only [hrf] at h
          split_ifs at h with hnan
          simp only [Except.ok.injEq, Prod.mk.injEq] at h
          obtain ⟨rfl, rfl⟩ := h
          obtain ⟨hrest0, hd0, hd1, hd2, hd3, hd4, hd5, hd6, hd7⟩ := readByte8_ok hrf
          have hcan : floatIsNan (beVal8 d0 d1 d2 d3 d4 d5 d6 d7) = true →
              beVal8 d0 d1 d2 d3 d4 d5 d6 d7 = canonicalNan := by
            intro hn
            by_contra hne
            exact hnan ⟨hn, hne⟩
          have hb0v : b0 = 0xfb := by omega
          have hbe := be8_beVal8 d0 d1 d2 d3 d4 d5 d6 d7 hd0 hd1 hd2 hd3 hd4 hd5 hd6 hd7
          have hnotsig : ¬ floatIsSigNan (beVal8 d0 d1 d2 d3 d4 d5 d6 d7) = true := by
            intro hs
            have hn := sig_imp_nan _ hs
            have hc := hcan hn
            rw [hc] at hs
            rw [canonicalNan_not_sig] at hs
            exact Bool.noConfusion hs
          by_cases hn : floatIsNan (beVal8 d0 d1 d2 d3 d4 d5 d6 d7) = true
          · have hc := hcan hn
            refine ⟨0xfb :: be8 canonicalNan, ?_, ?_⟩
            · rw [encodeValue]
              rw [if_neg hnotsig, if_pos hn]
            · rw [← hc, hbe, hrest0, hb0v]
              rfl
          · refine ⟨0xfb :: be8 (beVal8 d0 d1 d2 d3 d4 d5 d6 d7), ?_, ?_⟩
            · rw [encodeValue]
              rw [if_neg hnotsig, if_neg hn]
            · rw [hbe, hrest0, hb0v]
              rfl

/-- Claim C1: for every byte sequence that decodes successfully into the
dynamic `Value` type (so a valid canonical DRISL byte sequence), re-encoding
the resulting value yields exactly the original bytes — a byte-identical
round-trip covering every kind of the data model, maps included. -/
theorem decode_encode_roundtrip (bytes : List Nat) (v : Value)
    (h : fromSlice bytes = .ok v) : encodeValue v = .ok bytes := by
  unfold fromSlice at h
  cases hd : decodeItem 128 bytes with
  | error e => rw [hd] at h; exact Except.noConfusion h
  | ok p =>
    obtain ⟨v0, rest⟩ := p
    rw [hd] at h
    cases rest with
    | cons r0 rtail => exact Except.noConfusion h
    | nil =>
      simp only [Except.ok.injEq] at h
      subst h
      obtain ⟨out, hout, hbytes⟩ := decode_encode_aux 128 bytes v0 [] hd
      rw [hout, hbytes]
      simp

/-- Concrete round-trip instance: the canonical encoding of the map
`{"a": 2, "b": 1}` decodes and re-encodes to itself. -/
theorem decode_encode_roundtrip_witness :
    encodeValue (.map [([0x61], .integer 2), ([0x62], .integer 1)]) =
      .ok [0xa2, 0x61, 0x61, 2, 0x61, 0x62, 1] :=
  decode_encode_roundtrip [0xa2, 0x61, 0x61, 2, 0x61, 0x62, 1]
    (.map [([0x61], .integer 2), ([0x62], .integer 1)]) (by rfl)
